import Mathlib

/-!
# The insertion-ordered open-addressing hash map of `map.h`

A shallow embedding of `src/map.h` and a verification of its contract.

Modelling conventions.

* A `struct bucket*` into the slot array is the slot index; `NULL` is `none`.
  `m->last` is either the sentinel `(struct bucket*)&m->first` (`LastPtr.head`) or a slot.
* A non-null key pointer is a `Key`: its address and the bytes readable there.  The stored
  `void* key` of a slot is an `Option Key`, `none` being `NULL`, the emptiness marker.
  The `key` argument of the operations is a `Key`, so calls with a null key are outside the
  model.
* `hash_data` is a parameter `H` of the development (a function of the first `ksize` bytes of
  the key); the 16-bit variant of the source is embedded as `hash_data16`.
* `capacity`, `count`, sizes and words are natural numbers (no allocation failure and no
  `int` wrap-around, which would need more than `2^30` entries).  The load test
  `count + 1 > 0.75f * capacity` is read exactly, as `4 * (count + 1) > 3 * capacity`;
  the `float` values involved are exact while `count + 1 < 2^24`.
* A loop of the source is a recursion on fuel.  `none` stands for a run that does not return
  (a probe that cycles for ever) or that dereferences an invalid pointer.
* A callback is not run; every operation that calls it returns the list of the calls made.
-/

namespace Dirac

/-- A non-null `void*` key argument: the address and the bytes stored there. -/
structure Key where
  addr : Nat
  bytes : List Nat
deriving DecidableEq, Repr

/-- `struct bucket`. -/
structure bucket where
  next : Option Nat
  key : Option Key
  ksize : Nat
  hash : Nat
  value : Nat
deriving DecidableEq, Repr

/-- The values `m->last` takes: `(struct bucket*)&m->first` or the address of a slot. -/
inductive LastPtr where
  | head : LastPtr
  | slot : Nat → LastPtr
deriving DecidableEq, Repr

/-- `struct hashmap`. -/
structure hashmap where
  buckets : List bucket
  capacity : Nat
  count : Nat
  first : Option Nat
  last : LastPtr
deriving DecidableEq, Repr

/-- The arguments of one call of a `hashmap_callback`. -/
structure Call where
  key : Option Key
  ksize : Nat
  value : Nat
  usr : Nat
deriving DecidableEq, Repr

/-- A slot as `calloc` leaves it. -/
def zero_bucket : bucket := ⟨none, none, 0, 0, 0⟩

def HASHMAP_DEFAULT_CAPACITY : Nat := 5

def HASHMAP_RESIZE_FACTOR : Nat := 2

/-- The test `count + 1 > HASHMAP_MAX_LOAD * capacity` with `HASHMAP_MAX_LOAD = 0.75f`. -/
def over_load (count capacity : Nat) : Bool := decide (3 * capacity < 4 * (count + 1))

/-- One round of the 16-bit `hash_data`: `x = crc >> 8 ^ *data++; x ^= x>>4; crc = ...`. -/
def crc16_step (crc byte : Nat) : Nat :=
  let x0 := ((crc >>> 8) ^^^ byte) % 256
  let x := (x0 ^^^ (x0 >>> 4)) % 256
  ((crc <<< 8) ^^^ ((x <<< 12) % 65536) ^^^ ((x <<< 5) % 65536) ^^^ x) % 65536

/-- The `hash_data` of the 16-bit build, on the bytes `data[0..size)`. -/
def hash_data16 (data : List Nat) : Nat := data.foldl crc16_step 65535

/-- The bytes `key[0..ksize)`. -/
def key_bytes (key : Key) (ksize : Nat) : List Nat := key.bytes.take ksize

/-- The test `memcmp(a, b, n) == 0`. -/
def memcmp_eq (a b : Key) (n : Nat) : Bool := decide (key_bytes a n = key_bytes b n)

/-- `hashmap_create`. -/
def hashmap_create : hashmap :=
  { buckets := List.replicate HASHMAP_DEFAULT_CAPACITY zero_bucket
    capacity := HASHMAP_DEFAULT_CAPACITY
    count := 0
    first := none
    last := LastPtr.head }

/-- The read `m->last->next`. -/
def last_next (m : hashmap) : Option (Option Nat) :=
  match m.last with
  | LastPtr.head => some m.first
  | LastPtr.slot i => (m.buckets[i]?).map (fun e => e.next)

/-- The write `m->last->next = p`. -/
def set_last_next (m : hashmap) (p : Option Nat) : Option hashmap :=
  match m.last with
  | LastPtr.head => some { m with first := p }
  | LastPtr.slot i =>
    match m.buckets[i]? with
    | none => none
    | some e => some { m with buckets := m.buckets.set i { e with next := p } }

/-- The loop of `resize_entry`; returns the table and the slot the entry was copied to. -/
def resize_entry_loop (m : hashmap) (old_entry : bucket) : Nat → Nat → Option (hashmap × Nat)
  | 0, _ => none
  | fuel + 1, index =>
    match m.buckets[index]? with
    | none => none
    | some entry =>
      if entry.key = none then
        some ({ m with buckets := m.buckets.set index old_entry }, index)
      else resize_entry_loop m old_entry fuel ((index + 1) % m.capacity)

/-- `resize_entry`: a probe of `capacity` steps has seen every slot. -/
def resize_entry (m : hashmap) (old_entry : bucket) : Option (hashmap × Nat) :=
  resize_entry_loop m old_entry m.capacity (old_entry.hash % m.capacity)

/-- The `do ... while` of `hashmap_resize`; `m->last->next` points into `old_buckets`. -/
def resize_loop (old_buckets : List bucket) : Nat → hashmap → Option hashmap
  | 0, _ => none
  | fuel + 1, m => do
    let p ← last_next m
    let i ← p
    let old_entry ← old_buckets[i]?
    let (m1, j) ← resize_entry m old_entry
    let m2 ← set_last_next m1 (some j)
    let m3 := { m2 with last := LastPtr.slot j }
    let q ← last_next m3
    if q ≠ none then resize_loop old_buckets fuel m3 else some m3

/-- `hashmap_resize`; a list longer than the old array would be cyclic. -/
def hashmap_resize (m : hashmap) : Option hashmap :=
  let old_buckets := m.buckets
  let capacity := m.capacity * HASHMAP_RESIZE_FACTOR
  resize_loop old_buckets old_buckets.length
    { m with capacity := capacity
             buckets := List.replicate capacity zero_bucket
             last := LastPtr.head }

/-- The loop of `find_entry`. -/
def find_entry_loop (m : hashmap) (key : Key) (ksize hash : Nat) : Nat → Nat → Option Nat
  | 0, _ => none
  | fuel + 1, index =>
    match m.buckets[index]? with
    | none => none
    | some entry =>
      match entry.key with
      | none => some index
      | some ekey =>
        if entry.ksize = ksize ∧ entry.hash = hash ∧ memcmp_eq ekey key ksize = true then
          some index
        else find_entry_loop m key ksize hash fuel ((index + 1) % m.capacity)

/-- `find_entry`: a probe of `capacity` steps has seen every slot. -/
def find_entry (m : hashmap) (key : Key) (ksize hash : Nat) : Option Nat :=
  find_entry_loop m key ksize hash m.capacity (hash % m.capacity)

/-- The prologue shared by the three writers: grow when the load test fires. -/
def grow_if_needed (m : hashmap) : Option hashmap :=
  if over_load m.count m.capacity = true then hashmap_resize m else some m

/-- The branch `entry->key == NULL` shared by the three writers: append the slot to the
list, count it and fill it. -/
def link_new (m : hashmap) (entry : Nat) (key : Key) (ksize hash val : Nat) :
    Option hashmap := do
  let m1 ← set_last_next m (some entry)
  let m2 := { m1 with last := LastPtr.slot entry }
  let _ ← m2.buckets[entry]?
  some { m2 with count := m2.count + 1
                 buckets := m2.buckets.set entry ⟨none, some key, ksize, hash, val⟩ }

/-- `hashmap_set`. -/
def hashmap_set (H : List Nat → Nat) (m : hashmap) (key : Key) (ksize val : Nat) :
    Option hashmap := do
  let m ← grow_if_needed m
  let hash := H (key_bytes key ksize)
  let entry ← find_entry m key ksize hash
  let e ← m.buckets[entry]?
  match e.key with
  | none => link_new m entry key ksize hash val
  | some _ => some { m with buckets := m.buckets.set entry { e with value := val } }

/-- `hashmap_get_set`; returns the table, the result and the final `*out_in`. -/
def hashmap_get_set (H : List Nat → Nat) (m : hashmap) (key : Key) (ksize out_in : Nat) :
    Option (hashmap × Nat × Nat) := do
  let m ← grow_if_needed m
  let hash := H (key_bytes key ksize)
  let entry ← find_entry m key ksize hash
  let e ← m.buckets[entry]?
  match e.key with
  | none =>
    let m1 ← link_new m entry key ksize hash out_in
    some (m1, 0, out_in)
  | some _ => some (m, 1, e.value)

/-- `hashmap_set_free`; returns the table and the calls of `c`, each with the table as it
is when the call is made. -/
def hashmap_set_free (H : List Nat → Nat) (m : hashmap) (key : Key) (ksize val usr : Nat) :
    Option (hashmap × List (hashmap × Call)) := do
  let m ← grow_if_needed m
  let hash := H (key_bytes key ksize)
  let entry ← find_entry m key ksize hash
  let e ← m.buckets[entry]?
  match e.key with
  | none =>
    let m1 ← link_new m entry key ksize hash val
    some (m1, [])
  | some _ =>
    let call : Call := ⟨e.key, ksize, e.value, usr⟩
    some ({ m with buckets := m.buckets.set entry { e with key := some key, value := val } },
      [(m, call)])

/-- `hashmap_get`; returns the result and `*out_val`. -/
def hashmap_get (H : List Nat → Nat) (m : hashmap) (key : Key) (ksize : Nat) :
    Option (Nat × Nat) := do
  let hash := H (key_bytes key ksize)
  let entry ← find_entry m key ksize hash
  let e ← m.buckets[entry]?
  some (if e.key ≠ none then 1 else 0, e.value)

/-- `hashmap_size`. -/
def hashmap_size (m : hashmap) : Nat := m.count

/-- The loop of `hashmap_iterate`, with `current` and `co`.  The counter leaves the loop in
its 1002nd round at the latest, so that 1002 rounds of fuel are never used up. -/
def iterate_loop (buckets : List bucket) (usr : Nat) : Nat → Option Nat → Nat → Option (List Call)
  | 0, _, _ => none
  | _ + 1, none, _ => some []
  | fuel + 1, some i, co =>
    match buckets[i]? with
    | none => none
    | some cur =>
      let call : Call := ⟨cur.key, cur.ksize, cur.value, usr⟩
      if co > 1000 then some [call]
      else (iterate_loop buckets usr fuel cur.next (co + 1)).map (fun cs => call :: cs)

/-- `hashmap_iterate`; returns the calls of `c` in order. -/
def hashmap_iterate (m : hashmap) (usr : Nat) : Option (List Call) :=
  iterate_loop m.buckets usr 1002 m.first 0

/-- One call of a writer of the table. -/
inductive Op where
  | set (key : Key) (ksize val : Nat) : Op
  | get_set (key : Key) (ksize out_in : Nat) : Op
  | set_free (key : Key) (ksize val usr : Nat) : Op
deriving DecidableEq, Repr

/-- The table after one writer call. -/
def apply_op (H : List Nat → Nat) (m : hashmap) : Op → Option hashmap
  | Op.set key ksize val => hashmap_set H m key ksize val
  | Op.get_set key ksize out_in => (hashmap_get_set H m key ksize out_in).map (fun r => r.1)
  | Op.set_free key ksize val usr => (hashmap_set_free H m key ksize val usr).map (fun r => r.1)

/-- The table after a sequence of writer calls. -/
def run (H : List Nat → Nat) : List Op → hashmap → Option hashmap
  | [], m => some m
  | op :: ops, m => (apply_op H m op).bind (run H ops)

/-- The states reachable from `hashmap_create` by writer calls. -/
def Reachable (H : List Nat → Nat) (m : hashmap) : Prop :=
  ∃ ops, run H ops hashmap_create = some m

/-! ## The reference model: an association list in first-insertion order -/

/-- An entry of the reference model: the stored key reference, the key length, the value. -/
structure Entry where
  key : Key
  ksize : Nat
  value : Nat
deriving DecidableEq, Repr

/-- The key of `a` is byte-equal to `key[0..ksize)`: same length, same bytes. -/
def same_key (a : Entry) (key : Key) (ksize : Nat) : Bool :=
  decide (a.ksize = ksize ∧ key_bytes a.key ksize = key_bytes key ksize)

/-- The key and length an operation is called with. -/
def Op.key_of : Op → Key × Nat
  | Op.set key ksize _ => (key, ksize)
  | Op.get_set key ksize _ => (key, ksize)
  | Op.set_free key ksize _ _ => (key, ksize)

/-- The entry a writer stores when the key is absent. -/
def Op.fresh : Op → Entry
  | Op.set key ksize val => ⟨key, ksize, val⟩
  | Op.get_set key ksize out_in => ⟨key, ksize, out_in⟩
  | Op.set_free key ksize val _ => ⟨key, ksize, val⟩

/-- What a writer does to the entry that holds its key. -/
def Op.overwrite : Op → Entry → Entry
  | Op.set _ _ val, a => { a with value := val }
  | Op.get_set _ _ _, a => a
  | Op.set_free key _ val _, a => { a with key := key, value := val }

/-- One writer call on the reference model. -/
def a_apply (L : List Entry) (op : Op) : List Entry :=
  if L.any (fun a => same_key a op.key_of.1 op.key_of.2) = true then
    L.map (fun a => if same_key a op.key_of.1 op.key_of.2 = true then op.overwrite a else a)
  else L ++ [op.fresh]

/-- The reference model after a sequence of writer calls. -/
def model (ops : List Op) : List Entry := ops.foldl a_apply []

/-- The entry of the reference model with a key byte-equal to `key[0..ksize)`. -/
def a_find (L : List Entry) (key : Key) (ksize : Nat) : Option Entry :=
  L.find? (fun a => same_key a key ksize)

/-- The slot of the table that holds a key byte-equal to `key[0..ksize)`. -/
def stored (m : hashmap) (key : Key) (ksize : Nat) : Option bucket :=
  m.buckets.find? (fun e =>
    match e.key with
    | none => false
    | some ekey => decide (e.ksize = ksize) && memcmp_eq ekey key ksize)

/-- The identity of a key: its length and its bytes. -/
def key_id (key : Key) (ksize : Nat) : Nat × List Nat := (ksize, key_bytes key ksize)

/-- The entry a slot holds, if it is occupied. -/
def bucket.entry (e : bucket) : Option Entry :=
  e.key.map (fun k => ⟨k, e.ksize, e.value⟩)

/-- The entry the table holds for the key `key[0..ksize)`, found by a scan of all the
slots that does not use the hash. -/
def held (m : hashmap) (key : Key) (ksize : Nat) : Option Entry :=
  (stored m key ksize).bind bucket.entry

/-- The call of the callback that `hashmap_iterate` makes for an entry. -/
def call_of (usr : Nat) (a : Entry) : Call := ⟨some a.key, a.ksize, a.value, usr⟩

/-- A sequence of `hashmap_set` calls, each given by key, length and value. -/
def set_ops (sets : List (Key × Nat × Nat)) : List Op :=
  sets.map (fun o => Op.set o.1 o.2.1 o.2.2)

/-- The value of the last call in `sets` whose key is byte-equal to `key[0..ksize)`. -/
def last_set (sets : List (Key × Nat × Nat)) (key : Key) (ksize : Nat) : Option Nat :=
  (sets.reverse.find? (fun o => decide (key_id o.1 o.2.1 = key_id key ksize))).map
    (fun o => o.2.2)

/-- The number of distinct keys, by length and bytes, in a sequence of writer calls. -/
def distinct_keys (ops : List Op) : Nat :=
  ((ops.map (fun op => key_id op.key_of.1 op.key_of.2)).dedup).length

/-- The number of slots whose key is not null. -/
def occupied_slots (m : hashmap) : Nat :=
  ((List.range m.capacity).filter (fun i =>
    match m.buckets[i]? with
    | none => false
    | some e => decide (e.key ≠ none))).length

/-- The capacity after `n` insertions of new keys into a table from `hashmap_create`. -/
def cap_after : Nat → Nat
  | 0 => HASHMAP_DEFAULT_CAPACITY
  | n + 1 =>
    if over_load n (cap_after n) = true then cap_after n * HASHMAP_RESIZE_FACTOR
    else cap_after n

/-- The keys of `n` calls `hashmap_set` with pairwise distinct two-byte keys; the key of
call `i` is the number `i`, and so is the value. -/
def many_sets (n : Nat) : List (Key × Nat × Nat) :=
  (List.range n).map (fun i => (⟨i + 1, [i % 256, i / 256]⟩, 2, i))

/-! ## The representation invariant -/

/-- A linear probe: from `i`, step by one modulo `cap` until `stop` holds. -/
def scan (stop : Nat → Bool) (cap : Nat) : Nat → Nat → Option Nat
  | 0, _ => none
  | fuel + 1, i => if stop i = true then some i else scan stop cap fuel ((i + 1) % cap)

/-- The slot `i` makes `find_entry` return. -/
def find_stop (bs : List bucket) (key : Key) (ksize hash : Nat) (i : Nat) : Bool :=
  match bs[i]? with
  | none => true
  | some entry =>
    match entry.key with
    | none => true
    | some ekey =>
      decide (entry.ksize = ksize ∧ entry.hash = hash ∧ memcmp_eq ekey key ksize = true)

/-- The slot `i` makes `resize_entry` return. -/
def empty_stop (bs : List bucket) (i : Nat) : Bool :=
  match bs[i]? with
  | none => true
  | some entry => decide (entry.key = none)

/-- Following `next` from `s` visits exactly the slots `l`, and the last `next` is `t`. -/
def Chain (bs : List bucket) : Option Nat → List Nat → Option Nat → Prop
  | s, [], t => s = t
  | s, i :: l, t => s = some i ∧ ∃ e, bs[i]? = some e ∧ Chain bs e.next l t

/-- The value of `m->last` for the list `l`. -/
def last_of (l : List Nat) : LastPtr :=
  match l.getLast? with
  | none => LastPtr.head
  | some i => LastPtr.slot i

/-- The entry held by slot `i`. -/
def entry_at (bs : List bucket) (i : Nat) : Entry :=
  match bs[i]? with
  | none => ⟨⟨0, []⟩, 0, 0⟩
  | some e =>
    match e.key with
    | none => ⟨⟨0, []⟩, 0, 0⟩
    | some k => ⟨k, e.ksize, e.value⟩

/-- The entries of the slots `l`, in that order. -/
def entries (bs : List bucket) (l : List Nat) : List Entry := l.map (entry_at bs)

/-- The invariant of the slot array and of the list threaded through it: `l` is the list of
occupied slots in list order and `stop` the `next` field of its last slot. -/
structure Core (H : List Nat → Nat) (m : hashmap) (l : List Nat) (stop : Option Nat) : Prop where
  len : m.buckets.length = m.capacity
  cap : 5 ≤ m.capacity
  chain : Chain m.buckets m.first l stop
  nodup : l.Nodup
  occ : ∀ i ∈ l, ∃ e k, m.buckets[i]? = some e ∧ e.key = some k ∧
    e.hash = H (key_bytes k e.ksize)
  emp : ∀ i e, m.buckets[i]? = some e → i ∉ l → e = zero_bucket
  last : m.last = last_of l
  path : ∀ i ∈ l, ∀ e, m.buckets[i]? = some e →
    ∃ n, n < m.capacity ∧ (e.hash % m.capacity + n) % m.capacity = i ∧
      ∀ d, d < n → (e.hash % m.capacity + d) % m.capacity ∈ l
  uniq : ∀ i ∈ l, ∀ j ∈ l, same_key (entry_at m.buckets i) (entry_at m.buckets j).key
    (entry_at m.buckets j).ksize = true → i = j

/-- The invariant of every reachable table. -/
structure Inv (H : List Nat → Nat) (m : hashmap) (l : List Nat) : Prop where
  core : Core H m l none
  count : l.length = m.count
  load : 4 * m.count ≤ 3 * m.capacity

/-- The table `m` with the key reference and the value of the slot `j`, which holds `e`,
taken from `a`. -/
def rewrite_slot (m : hashmap) (j : Nat) (e : bucket) (a : Entry) : hashmap :=
  { m with buckets := m.buckets.set j { e with key := some a.key, value := a.value } }

/-- The table `m` represents the association list `L`. -/
def Rep (H : List Nat → Nat) (m : hashmap) (L : List Entry) : Prop :=
  ∃ l, Inv H m l ∧ entries m.buckets l = L

/-! ## The insertion-order list and the slot array, as observed on a table -/

/-- The key reference, key length, cached hash and value of a slot. -/
structure Content where
  key : Option Key
  ksize : Nat
  hash : Nat
  value : Nat
deriving DecidableEq, Repr

/-- The content of a slot. -/
def bucket.content (e : bucket) : Content := ⟨e.key, e.ksize, e.hash, e.value⟩

/-- The call of the callback on a slot with the content `d`. -/
def Content.call (usr : Nat) (d : Content) : Call := ⟨d.key, d.ksize, d.value, usr⟩

/-- The identity of the key of a slot with the content `d`. -/
def Content.key_id (d : Content) : Nat × List Nat :=
  match d.key with
  | none => (0, [])
  | some k => Dirac.key_id k d.ksize

/-- The slots met when following `next` from `p` until `NULL`, in that order; `none` when
`NULL` is not reached within `fuel` slots or a pointer does not point into the array. -/
def walk (bs : List bucket) : Nat → Option Nat → Option (List Nat)
  | _, none => some []
  | 0, some _ => none
  | fuel + 1, some i =>
    match bs[i]? with
    | none => none
    | some e => (walk bs fuel e.next).map (fun l => i :: l)

/-- The slots of the list `m->first`, when it reaches `NULL` within `count` slots. -/
def slots_in_order (m : hashmap) : Option (List Nat) := walk m.buckets m.count m.first

/-- The contents of the slots of the list `m->first`, in list order. -/
def entries_in_order (m : hashmap) : Option (List Content) :=
  (slots_in_order m).map (fun l => l.map (fun i => (m.buckets.getD i zero_bucket).content))

/-- The content of the slot that holds the entry `a` of the reference model. -/
def content_of (H : List Nat → Nat) (a : Entry) : Content :=
  ⟨some a.key, a.ksize, H (key_bytes a.key a.ksize), a.value⟩

/-- The distinct keys of a sequence of keys, in the order of their first occurrence. -/
def first_inserted (ids : List (Nat × List Nat)) : List (Nat × List Nat) :=
  ids.foldl (fun acc x => if x ∈ acc then acc else acc ++ [x]) []

/-- The invariant of open addressing: the cached hash of an occupied slot is the hash of
its key, the slots of the probe path from `hash % capacity` up to it are occupied, and no
other slot holds a byte-equal key. -/
def OpenAddressing (H : List Nat → Nat) (m : hashmap) : Prop :=
  ∀ i e k, m.buckets[i]? = some e → e.key = some k →
    e.hash = H (key_bytes k e.ksize) ∧
    (∃ n, n < m.capacity ∧ (e.hash % m.capacity + n) % m.capacity = i ∧
      ∀ d, d < n → ∃ e2 k2,
        m.buckets[(e.hash % m.capacity + d) % m.capacity]? = some e2 ∧ e2.key = some k2) ∧
    ∀ j e2 k2, m.buckets[j]? = some e2 → e2.key = some k2 →
      Dirac.key_id k2 e2.ksize = Dirac.key_id k e.ksize → j = i

/-! ## Linear probing -/

theorem mod_succ_add (i d cap : Nat) : ((i + 1) % cap + d) % cap = (i + (d + 1)) % cap := by
  rw [Nat.mod_add_mod]
  congr 1
  omega

theorem scan_steps (stop : Nat → Bool) (cap : Nat) (hcap : 0 < cap) :
    ∀ n f i, i < cap → n < f → (∀ d, d < n → stop ((i + d) % cap) = false) →
      stop ((i + n) % cap) = true → scan stop cap f i = some ((i + n) % cap) := by
  intro n
  induction n with
  | zero =>
    intro f i hi hf _ hs
    obtain ⟨f, rfl⟩ : ∃ g, f = g + 1 := ⟨f - 1, by omega⟩
    simp only [Nat.add_zero, Nat.mod_eq_of_lt hi] at hs ⊢
    simp [scan, hs]
  | succ n ih =>
    intro f i hi hf hno hs
    obtain ⟨f, rfl⟩ : ∃ g, f = g + 1 := ⟨f - 1, by omega⟩
    have h0 : stop i = false := by
      have := hno 0 (by omega)
      simpa [Nat.mod_eq_of_lt hi] using this
    have hrec := ih f ((i + 1) % cap) (Nat.mod_lt _ hcap) (by omega)
      (fun d hd => by rw [mod_succ_add]; exact hno (d + 1) (by omega))
      (by rw [mod_succ_add]; exact hs)
    rw [mod_succ_add] at hrec
    simp [scan, h0, hrec]

theorem probe_exists (stop : Nat → Bool) (cap i j : Nat) (hi : i < cap) (hj : j < cap)
    (hs : stop j = true) :
    ∃ n, n < cap ∧ stop ((i + n) % cap) = true ∧
      ∀ d, d < n → stop ((i + d) % cap) = false := by
  have hex : ∃ n, stop ((i + n) % cap) = true := by
    refine ⟨j + cap - i, ?_⟩
    have : i + (j + cap - i) = j + cap := by omega
    rw [this, Nat.add_mod_right, Nat.mod_eq_of_lt hj]
    exact hs
  classical
  refine ⟨Nat.find hex, ?_, Nat.find_spec hex, ?_⟩
  · have hle : Nat.find hex ≤ (j + cap - i) % cap := by
      apply Nat.find_min'
      rw [Nat.add_mod_mod]
      have : i + (j + cap - i) = j + cap := by omega
      rw [this, Nat.add_mod_right, Nat.mod_eq_of_lt hj]
      exact hs
    have : (j + cap - i) % cap < cap := Nat.mod_lt _ (by omega)
    omega
  · intro d hd
    have := Nat.find_min hex hd
    simpa using this

/-- A probe of `cap` steps stops at the first slot of the cyclic path where `stop` holds. -/
theorem scan_spec (stop : Nat → Bool) (cap i j : Nat) (hi : i < cap) (hj : j < cap)
    (hs : stop j = true) :
    ∃ n, n < cap ∧ scan stop cap cap i = some ((i + n) % cap) ∧
      stop ((i + n) % cap) = true ∧ ∀ d, d < n → stop ((i + d) % cap) = false := by
  obtain ⟨n, hn, hsn, hno⟩ := probe_exists stop cap i j hi hj hs
  exact ⟨n, hn, scan_steps stop cap (by omega) n cap i hi hn hno hsn, hsn, hno⟩

theorem find_entry_loop_eq (m : hashmap) (key : Key) (ksize hash : Nat)
    (hlen : m.buckets.length = m.capacity) :
    ∀ f i, i < m.capacity →
      find_entry_loop m key ksize hash f i
        = scan (find_stop m.buckets key ksize hash) m.capacity f i := by
  intro f
  induction f with
  | zero => intro i _; rfl
  | succ f ih =>
    intro i hi
    have hcap : 0 < m.capacity := by omega
    have hget : m.buckets[i]? = some (m.buckets[i]) := List.getElem?_eq_getElem (by omega)
    rw [find_entry_loop, scan, hget]
    simp only [find_stop, hget]
    cases hk : (m.buckets[i]).key with
    | none => simp
    | some ekey =>
      simp only
      by_cases hc : (m.buckets[i]).ksize = ksize ∧ (m.buckets[i]).hash = hash ∧
          memcmp_eq ekey key ksize = true
      · simp [hc]
      · rw [if_neg hc, ih _ (Nat.mod_lt _ hcap)]
        simp [hc]

theorem resize_entry_loop_eq (m : hashmap) (old_entry : bucket)
    (hlen : m.buckets.length = m.capacity) :
    ∀ f i, i < m.capacity →
      resize_entry_loop m old_entry f i
        = (scan (empty_stop m.buckets) m.capacity f i).map
            (fun j => ({ m with buckets := m.buckets.set j old_entry }, j)) := by
  intro f
  induction f with
  | zero => intro i _; rfl
  | succ f ih =>
    intro i hi
    have hcap : 0 < m.capacity := by omega
    have hget : m.buckets[i]? = some (m.buckets[i]) := List.getElem?_eq_getElem (by omega)
    rw [resize_entry_loop, scan, hget]
    simp only [empty_stop, hget]
    by_cases hc : (m.buckets[i]).key = none
    · simp [hc]
    · rw [if_neg hc, ih _ (Nat.mod_lt _ hcap)]
      simp [hc]

/-! ## The threaded list -/

theorem chain_congr (bs bs2 : List bucket) :
    ∀ (l : List Nat) (s t : Option Nat), (∀ i ∈ l, bs2[i]? = bs[i]?) →
      Chain bs s l t → Chain bs2 s l t := by
  intro l
  induction l with
  | nil => intro s t _ h; exact h
  | cons i l ih =>
    intro s t hsame h
    obtain ⟨hs, e, he, hc⟩ := h
    refine ⟨hs, e, ?_, ih _ _ (fun k hk => hsame k (List.mem_cons_of_mem _ hk)) hc⟩
    rw [hsame i (List.mem_cons_self _ _)]
    exact he

theorem chain_append (bs : List bucket) :
    ∀ (l1 l2 : List Nat) (s t : Option Nat),
      Chain bs s (l1 ++ l2) t ↔ ∃ u, Chain bs s l1 u ∧ Chain bs u l2 t := by
  intro l1
  induction l1 with
  | nil =>
    intro l2 s t
    constructor
    · intro h; exact ⟨s, rfl, h⟩
    · rintro ⟨u, hu, h⟩
      have : s = u := hu
      subst this
      exact h
  | cons i l1 ih =>
    intro l2 s t
    constructor
    · rintro ⟨hs, e, he, hc⟩
      obtain ⟨u, h1, h2⟩ := (ih l2 _ t).1 hc
      exact ⟨u, ⟨hs, e, he, h1⟩, h2⟩
    · rintro ⟨u, ⟨hs, e, he, h1⟩, h2⟩
      exact ⟨hs, e, he, (ih l2 _ t).2 ⟨u, h1, h2⟩⟩

theorem chain_snoc (bs : List bucket) (l : List Nat) (i : Nat) (s t : Option Nat) :
    Chain bs s (l ++ [i]) t ↔ Chain bs s l (some i) ∧ ∃ e, bs[i]? = some e ∧ e.next = t := by
  rw [chain_append]
  constructor
  · rintro ⟨u, h1, hu, e, he, hc⟩
    subst hu
    exact ⟨h1, e, he, hc⟩
  · rintro ⟨h1, e, he, hc⟩
    exact ⟨some i, h1, rfl, e, he, hc⟩

theorem chain_mem_lt (bs : List bucket) :
    ∀ (l : List Nat) (s t : Option Nat), Chain bs s l t → ∀ i ∈ l, i < bs.length := by
  intro l
  induction l with
  | nil => intro s t _ i hi; simp at hi
  | cons j l ih =>
    intro s t h i hi
    obtain ⟨_, e, he, hc⟩ := h
    rcases List.mem_cons.1 hi with rfl | hi
    · by_contra hlt
      rw [List.getElem?_eq_none (by omega)] at he
      cases he
    · exact ih _ _ hc i hi

theorem last_of_snoc (l : List Nat) (i : Nat) : last_of (l ++ [i]) = LastPtr.slot i := by
  simp [last_of]

theorem last_of_nil : last_of [] = LastPtr.head := rfl

/-! ## Preservation of the invariant by slot writes -/

theorem same_key_iff (a : Entry) (key : Key) (ksize : Nat) :
    same_key a key ksize = true ↔
      a.ksize = ksize ∧ key_bytes a.key ksize = key_bytes key ksize := by
  simp [same_key]

theorem entry_at_some (bs : List bucket) (i : Nat) (e : bucket) (k : Key)
    (h : bs[i]? = some e) (hk : e.key = some k) :
    entry_at bs i = ⟨k, e.ksize, e.value⟩ := by
  simp [entry_at, h, hk]

theorem get_of_lt (bs : List bucket) (i : Nat) (h : i < bs.length) :
    ∃ e, bs[i]? = some e := ⟨bs[i], List.getElem?_eq_getElem h⟩

theorem lt_of_get (bs : List bucket) (i : Nat) (e : bucket) (h : bs[i]? = some e) :
    i < bs.length := by
  by_contra hlt
  rw [List.getElem?_eq_none (by omega)] at h
  cases h

/-- Slot writes that keep key bytes, lengths and hashes, and leave empty slots alone,
keep the invariant, whatever they do to the `next` fields along a valid list. -/
theorem core_similar {H : List Nat → Nat} {m : hashmap} {l : List Nat} {stop : Option Nat}
    (h : Core H m l stop) (m2 : hashmap) (stop2 : Option Nat)
    (hcap : m2.capacity = m.capacity) (hlast : m2.last = m.last)
    (hlen : m2.buckets.length = m.buckets.length)
    (hchain : Chain m2.buckets m2.first l stop2)
    (hsim : ∀ x e, m.buckets[x]? = some e → ∃ e2, m2.buckets[x]? = some e2 ∧
      e2.ksize = e.ksize ∧ e2.hash = e.hash ∧ (x ∉ l → e2 = e) ∧
      ∀ k, e.key = some k → ∃ k2, e2.key = some k2 ∧
        key_bytes k2 e.ksize = key_bytes k e.ksize) :
    Core H m2 l stop2 := by
  have hent : ∀ i ∈ l, ∃ e k e2 k2, m.buckets[i]? = some e ∧ e.key = some k ∧
      m2.buckets[i]? = some e2 ∧ e2.key = some k2 ∧ e2.ksize = e.ksize ∧
      e2.hash = e.hash ∧ key_bytes k2 e.ksize = key_bytes k e.ksize ∧
      e.hash = H (key_bytes k e.ksize) := by
    intro i hi
    obtain ⟨e, k, he, hk, hh⟩ := h.occ i hi
    obtain ⟨e2, he2, hks, hhash, _, hkey⟩ := hsim i e he
    obtain ⟨k2, hk2, hb⟩ := hkey k hk
    exact ⟨e, k, e2, k2, he, hk, he2, hk2, hks, hhash, hb, hh⟩
  refine ⟨by rw [hlen, hcap]; exact h.len, by rw [hcap]; exact h.cap, hchain, h.nodup,
    ?_, ?_, by rw [hlast]; exact h.last, ?_, ?_⟩
  · intro i hi
    obtain ⟨e, k, e2, k2, _, _, he2, hk2, hks, hhash, hb, hh⟩ := hent i hi
    exact ⟨e2, k2, he2, hk2, by rw [hhash, hh, hks, hb]⟩
  · intro i e2 he2 hi
    obtain ⟨e, he⟩ := get_of_lt m.buckets i (by rw [← hlen]; exact lt_of_get _ _ _ he2)
    obtain ⟨e3, he3, _, _, hsame, _⟩ := hsim i e he
    rw [he2] at he3
    cases he3
    rw [hsame hi]
    exact h.emp i e he hi
  · intro i hi e2 he2
    obtain ⟨e, k, e3, k2, he, _, he3, _, _, hhash, _, _⟩ := hent i hi
    rw [he2] at he3
    cases he3
    rw [hcap, hhash]
    exact h.path i hi e he
  · intro i hi j hj hsame
    obtain ⟨ei, ki, ei2, ki2, hei, hki, hei2, hki2, hksi, _, hbi, _⟩ := hent i hi
    obtain ⟨ej, kj, ej2, kj2, hej, hkj, hej2, hkj2, hksj, _, hbj, _⟩ := hent j hj
    apply h.uniq i hi j hj
    rw [entry_at_some _ _ _ _ hei2 hki2, entry_at_some _ _ _ _ hej2 hkj2, same_key_iff] at hsame
    rw [entry_at_some _ _ _ _ hei hki, entry_at_some _ _ _ _ hej hkj, same_key_iff]
    simp only at hsame ⊢
    obtain ⟨h1, h2⟩ := hsame
    refine ⟨by omega, ?_⟩
    have h3 : ej2.ksize = ei.ksize := by omega
    rw [hksj] at h3
    rw [hksj, h3] at h2
    rw [h3, ← hbi, h2, ← h3, hbj]

/-- The effect of `m->last->next = p` on a table that satisfies the invariant. -/
theorem core_set_last_next {H : List Nat → Nat} {m : hashmap} {l : List Nat}
    {stop : Option Nat} (h : Core H m l stop) (p : Option Nat) :
    ∃ m1, set_last_next m p = some m1 ∧ Core H m1 l p ∧ m1.capacity = m.capacity ∧
      m1.count = m.count ∧ m1.last = m.last ∧ m1.buckets.length = m.buckets.length ∧
      (∀ x, entry_at m1.buckets x = entry_at m.buckets x) ∧
      (∀ x, x ∉ l → m1.buckets[x]? = m.buckets[x]?) := by
  rcases List.eq_nil_or_concat l with rfl | ⟨l0, i, rfl⟩
  case inr => 
    simp only [List.concat_eq_append] at h ⊢
    have hl : m.last = LastPtr.slot i := by rw [h.last, last_of_snoc]
    obtain ⟨ei, ki, hei, hki, _⟩ := h.occ i (by simp)
    have hil : i < m.buckets.length := lt_of_get _ _ _ hei
    have hnd := h.nodup
    rw [List.nodup_append] at hnd
    have hi0 : i ∉ l0 := fun hmem => hnd.2.2 hmem (by simp) 
    refine ⟨{ m with buckets := m.buckets.set i { ei with next := p } },
      by simp [set_last_next, hl, hei], ?_, rfl, rfl, rfl, by simp, ?_, ?_⟩
    · refine core_similar h _ p rfl rfl (by simp) ?_ ?_
      · have hc := (chain_snoc _ _ _ _ _).1 h.chain
        refine (chain_snoc _ _ _ _ _).2 ⟨chain_congr m.buckets _ l0 _ _ ?_ hc.1,
          { ei with next := p }, ?_, rfl⟩
        · intro x hx
          have : i ≠ x := fun hix => hi0 (hix ▸ hx)
          simp [List.getElem?_set_ne this]
        · simp [List.getElem?_set_self hil]
      · intro x e he
        by_cases hx : i = x
        · subst hx
          rw [hei] at he
          cases he
          refine ⟨{ ei with next := p }, by simp [List.getElem?_set_self hil], rfl, rfl,
            fun hn => absurd (by simp) hn, fun k hk => ⟨k, hk, rfl⟩⟩
        · exact ⟨e, by simp [List.getElem?_set_ne hx, he], rfl, rfl, fun _ => rfl,
            fun k hk => ⟨k, hk, rfl⟩⟩
    · intro x
      by_cases hx : i = x
      · subst hx
        simp [entry_at, List.getElem?_set_self hil, hei]
      · simp [entry_at, List.getElem?_set_ne hx]
    · intro x hx
      have : i ≠ x := fun hix => hx (by simp [hix])
      simp [List.getElem?_set_ne this]
  case inl =>
    have hl : m.last = LastPtr.head := h.last
    refine ⟨{ m with first := p }, by simp [set_last_next, hl], ?_, rfl, rfl, rfl, rfl,
      fun _ => rfl, fun _ _ => rfl⟩
    refine core_similar h _ p rfl rfl rfl rfl ?_
    intro x e he
    exact ⟨e, he, rfl, rfl, fun _ => rfl, fun k hk => ⟨k, hk, rfl⟩⟩

theorem same_key_symm (a b : Entry) :
    same_key a b.key b.ksize = same_key b a.key a.ksize := by
  rw [Bool.eq_iff_iff, same_key_iff, same_key_iff]
  constructor
  · rintro ⟨h1, h2⟩
    exact ⟨h1.symm, by rw [h1, h2]⟩
  · rintro ⟨h1, h2⟩
    exact ⟨h1.symm, by rw [h1, h2]⟩

/-- Filling the empty slot `j`, found by probing from the hash of its key, extends the
list by `j`. -/
theorem core_write_new {H : List Nat → Nat} {m : hashmap} {l : List Nat} {j : Nat}
    (h : Core H m l (some j)) (e : bucket) (k : Key) (m2 : hashmap)
    (hj : j < m.capacity) (hjl : j ∉ l) (hk : e.key = some k)
    (hh : e.hash = H (key_bytes k e.ksize))
    (hpath : ∃ n, n < m.capacity ∧ (e.hash % m.capacity + n) % m.capacity = j ∧
      ∀ d, d < n → (e.hash % m.capacity + d) % m.capacity ∈ l)
    (hfresh : ∀ i ∈ l, same_key (entry_at m.buckets i) k e.ksize = false)
    (hb : m2.buckets = m.buckets.set j e) (hcap : m2.capacity = m.capacity)
    (hfirst : m2.first = m.first) (hlast : m2.last = LastPtr.slot j) :
    Core H m2 (l ++ [j]) e.next ∧
      entries m2.buckets (l ++ [j]) = entries m.buckets l ++ [⟨k, e.ksize, e.value⟩] := by
  have hjlen : j < m.buckets.length := by rw [h.len]; exact hj
  have hget : m2.buckets[j]? = some e := by rw [hb]; exact List.getElem?_set_self hjlen
  have hne : ∀ x, x ≠ j → m2.buckets[x]? = m.buckets[x]? := by
    intro x hx
    rw [hb]
    exact List.getElem?_set_ne (Ne.symm hx)
  have hnel : ∀ x ∈ l, x ≠ j := fun x hx hxj => hjl (hxj ▸ hx)
  have hent : ∀ x, x ≠ j → entry_at m2.buckets x = entry_at m.buckets x := by
    intro x hx
    simp [entry_at, hne x hx]
  have hentj : entry_at m2.buckets j = ⟨k, e.ksize, e.value⟩ := entry_at_some _ _ _ _ hget hk
  constructor
  · refine ⟨by rw [hb, List.length_set, hcap]; exact h.len, by rw [hcap]; exact h.cap, ?_,
      ?_, ?_, ?_, by rw [hlast, last_of_snoc], ?_, ?_⟩
    · rw [hfirst]
      exact (chain_snoc _ _ _ _ _).2
        ⟨chain_congr m.buckets _ l _ _ (fun x hx => hne x (hnel x hx)) h.chain, e, hget, rfl⟩
    · rw [List.nodup_append]
      exact ⟨h.nodup, by simp, by
        intro a ha hb2
        simp at hb2
        exact hnel a ha hb2⟩
    · intro i hi
      rcases List.mem_append.1 hi with hi | hi
      · obtain ⟨ei, ki, hei, hki, hhi⟩ := h.occ i hi
        exact ⟨ei, ki, by rw [hne i (hnel i hi)]; exact hei, hki, hhi⟩
      · simp at hi
        subst hi
        exact ⟨e, k, hget, hk, hh⟩
    · intro i ei hei hi
      have hij : i ≠ j := fun hij => hi (by simp [hij])
      rw [hne i hij] at hei
      exact h.emp i ei hei (fun hmem => hi (List.mem_append_left _ hmem))
    · intro i hi ei hei
      rw [hcap]
      rcases List.mem_append.1 hi with hi | hi
      · rw [hne i (hnel i hi)] at hei
        obtain ⟨n, hn, hni, hnd⟩ := h.path i hi ei hei
        exact ⟨n, hn, hni, fun d hd => List.mem_append_left _ (hnd d hd)⟩
      · simp at hi
        subst hi
        rw [hget] at hei
        cases hei
        obtain ⟨n, hn, hni, hnd⟩ := hpath
        exact ⟨n, hn, hni, fun d hd => List.mem_append_left _ (hnd d hd)⟩
    · intro i hi i2 hi2 hsame
      rcases List.mem_append.1 hi with ha | ha <;> rcases List.mem_append.1 hi2 with hc | hc
      · rw [hent i (hnel i ha), hent i2 (hnel i2 hc)] at hsame
        exact h.uniq i ha i2 hc hsame
      · have hc2 : i2 = j := by simpa using hc
        rw [hent i (hnel i ha), hc2, hentj] at hsame
        simp only at hsame
        rw [hfresh i ha] at hsame
        cases hsame
      · have ha2 : i = j := by simpa using ha
        rw [same_key_symm, hent i2 (hnel i2 hc), ha2, hentj] at hsame
        simp only at hsame
        rw [hfresh i2 hc] at hsame
        cases hsame
      · have ha2 : i = j := by simpa using ha
        have hc2 : i2 = j := by simpa using hc
        rw [ha2, hc2]
  · simp only [entries, List.map_append, List.map_cons, List.map_nil, hentj]
    congr 1
    apply List.map_congr_left
    intro x hx
    exact hent x (hnel x hx)

/-- Rewriting the value, and the key reference by a byte-equal one, of an occupied slot. -/
theorem core_update {H : List Nat → Nat} {m : hashmap} {l : List Nat} {stop : Option Nat}
    (h : Core H m l stop) (j : Nat) (e : bucket) (k k2 : Key) (v : Nat) (m2 : hashmap)
    (hje : m.buckets[j]? = some e) (hk : e.key = some k)
    (hbytes : key_bytes k2 e.ksize = key_bytes k e.ksize)
    (hb : m2.buckets = m.buckets.set j { e with key := some k2, value := v })
    (hcap : m2.capacity = m.capacity) (hfirst : m2.first = m.first)
    (hlast : m2.last = m.last) :
    Core H m2 l stop ∧ entry_at m2.buckets j = ⟨k2, e.ksize, v⟩ ∧
      ∀ x, x ≠ j → entry_at m2.buckets x = entry_at m.buckets x := by
  have hjlen : j < m.buckets.length := lt_of_get _ _ _ hje
  have hget : m2.buckets[j]? = some { e with key := some k2, value := v } := by
    rw [hb]; exact List.getElem?_set_self hjlen
  have hne : ∀ x, x ≠ j → m2.buckets[x]? = m.buckets[x]? := by
    intro x hx
    rw [hb]
    exact List.getElem?_set_ne (Ne.symm hx)
  have hjl : j ∈ l := by
    by_contra hn
    have := h.emp j e hje hn
    rw [this] at hk
    cases hk
  refine ⟨?_, entry_at_some _ _ _ _ hget rfl, fun x hx => by simp [entry_at, hne x hx]⟩
  refine core_similar h m2 stop hcap hlast (by rw [hb, List.length_set]) ?_ ?_
  · rw [hfirst]
    have hgen : ∀ (l2 : List Nat) (s t : Option Nat), Chain m.buckets s l2 t →
        Chain m2.buckets s l2 t := by
      intro l2
      induction l2 with
      | nil => intro s t hc; exact hc
      | cons i l2 ih =>
        intro s t hc
        obtain ⟨hs, ei, hei, hc2⟩ := hc
        by_cases hij : i = j
        · subst hij
          rw [hje] at hei
          cases hei
          exact ⟨hs, _, hget, ih _ _ hc2⟩
        · exact ⟨hs, ei, by rw [hne i hij]; exact hei, ih _ _ hc2⟩
    exact hgen l _ _ h.chain
  · intro x ex hex
    by_cases hx : x = j
    · subst hx
      rw [hje] at hex
      cases hex
      refine ⟨_, hget, rfl, rfl, fun hn => absurd hjl hn, ?_⟩
      intro k3 hk3
      rw [hk] at hk3
      cases hk3
      exact ⟨k2, rfl, hbytes⟩
    · exact ⟨ex, by rw [hne x hx]; exact hex, rfl, rfl, fun _ => rfl, fun k3 hk3 => ⟨k3, hk3, rfl⟩⟩

/-! ## What `find_entry` returns on a table that satisfies the invariant -/

theorem exists_not_mem (l : List Nat) (cap : Nat) (hlen : l.length < cap) :
    ∃ j, j < cap ∧ j ∉ l := by
  by_contra hcon
  have hall : ∀ j, j < cap → j ∈ l := by
    intro j hj
    by_contra hjl
    exact hcon ⟨j, hj, hjl⟩
  have hsub : List.range cap ⊆ l := fun j hj => hall j (List.mem_range.1 hj)
  have := (List.subperm_of_subset (List.nodup_range cap) hsub).length_le
  rw [List.length_range] at this
  omega

theorem core_mem_lt {H : List Nat → Nat} {m : hashmap} {l : List Nat} {stop : Option Nat}
    (h : Core H m l stop) : ∀ i ∈ l, i < m.capacity := by
  intro i hi
  rw [← h.len]
  exact chain_mem_lt _ _ _ _ h.chain i hi

theorem core_mem_iff {H : List Nat → Nat} {m : hashmap} {l : List Nat} {stop : Option Nat}
    (h : Core H m l stop) (i : Nat) (e : bucket) (he : m.buckets[i]? = some e) :
    i ∈ l ↔ e.key ≠ none := by
  constructor
  · intro hi
    obtain ⟨e2, k, he2, hk, _⟩ := h.occ i hi
    rw [he] at he2
    cases he2
    rw [hk]
    simp
  · intro hk
    by_contra hi
    rw [h.emp i e he hi] at hk
    exact hk rfl

theorem core_last_next {H : List Nat → Nat} {m : hashmap} {l : List Nat} {stop : Option Nat}
    (h : Core H m l stop) : last_next m = some stop := by
  rcases List.eq_nil_or_concat l with rfl | ⟨l0, i, rfl⟩
  case inl =>
    have hl : m.last = LastPtr.head := h.last
    have hc : m.first = stop := h.chain
    simp [last_next, hl, hc]
  case inr =>
    simp only [List.concat_eq_append] at h
    have hl : m.last = LastPtr.slot i := by rw [h.last, last_of_snoc]
    obtain ⟨_, e, he, hn⟩ := (chain_snoc _ _ _ _ _).1 h.chain
    simp [last_next, hl, he, hn]

/-- The slot returned by `find_entry` for the key `key[0..ksize)`: the occupied slot that
holds the key when there is one, and otherwise the first empty slot of the probe path. -/
theorem find_entry_core {H : List Nat → Nat} {m : hashmap} {l : List Nat}
    {stop : Option Nat} (h : Core H m l stop) (hroom : l.length < m.capacity)
    (key : Key) (ksize : Nat) :
    ∃ j e, find_entry m key ksize (H (key_bytes key ksize)) = some j ∧
      m.buckets[j]? = some e ∧ j < m.capacity ∧
      ((e.key = none ∧ j ∉ l ∧
          (∃ n, n < m.capacity ∧
            (H (key_bytes key ksize) % m.capacity + n) % m.capacity = j ∧
            ∀ d, d < n → (H (key_bytes key ksize) % m.capacity + d) % m.capacity ∈ l) ∧
          ∀ i ∈ l, same_key (entry_at m.buckets i) key ksize = false) ∨
        (∃ ek, e.key = some ek ∧ j ∈ l ∧ same_key (entry_at m.buckets j) key ksize = true)) := by
  have hcap : 0 < m.capacity := by have := h.cap; omega
  obtain ⟨j0, hj0, hj0l⟩ := exists_not_mem l m.capacity hroom
  obtain ⟨e0, he0⟩ := get_of_lt m.buckets j0 (by rw [h.len]; exact hj0)
  have hz := h.emp j0 e0 he0 hj0l
  have hstop0 : find_stop m.buckets key ksize (H (key_bytes key ksize)) j0 = true := by
    simp [find_stop, he0, hz, zero_bucket]
  obtain ⟨n, hn, hscan, hstop, hno⟩ := scan_spec _ m.capacity
    (H (key_bytes key ksize) % m.capacity) j0 (Nat.mod_lt _ hcap) hj0 hstop0
  have hjlt : (H (key_bytes key ksize) % m.capacity + n) % m.capacity < m.capacity :=
    Nat.mod_lt _ hcap
  obtain ⟨e, he⟩ := get_of_lt m.buckets _ (by rw [h.len]; exact hjlt)
  have hfind : find_entry m key ksize (H (key_bytes key ksize))
      = some ((H (key_bytes key ksize) % m.capacity + n) % m.capacity) := by
    rw [find_entry, find_entry_loop_eq m key ksize _ h.len _ _ (Nat.mod_lt _ hcap)]
    exact hscan
  have hpathmem : ∀ d, d < n →
      (H (key_bytes key ksize) % m.capacity + d) % m.capacity ∈ l := by
    intro d hd
    have hf := hno d hd
    obtain ⟨ed, hed⟩ := get_of_lt m.buckets
      ((H (key_bytes key ksize) % m.capacity + d) % m.capacity)
      (by rw [h.len]; exact Nat.mod_lt _ hcap)
    rw [core_mem_iff h _ ed hed]
    intro hnone
    simp only [find_stop, hed, hnone] at hf
    cases hf
  refine ⟨_, e, hfind, he, hjlt, ?_⟩
  cases hk : e.key with
  | none =>
    left
    have hjl : (H (key_bytes key ksize) % m.capacity + n) % m.capacity ∉ l := by
      rw [core_mem_iff h _ e he, hk]
      simp
    refine ⟨rfl, hjl, ⟨n, hn, rfl, hpathmem⟩, ?_⟩
    intro i hi
    by_contra hsame
    have hsame : same_key (entry_at m.buckets i) key ksize = true := by
      simpa using hsame
    obtain ⟨ei, ki, hei, hki, hhi⟩ := h.occ i hi
    rw [entry_at_some _ _ _ _ hei hki, same_key_iff] at hsame
    simp only at hsame
    obtain ⟨hks, hbytes⟩ := hsame
    have hhash : ei.hash = H (key_bytes key ksize) := by rw [hhi, hks, hbytes]
    have hstopi : find_stop m.buckets key ksize (H (key_bytes key ksize)) i = true := by
      simp [find_stop, hei, hki, hks, hhash, memcmp_eq, hbytes]
    obtain ⟨ni, hni, hnii, hnid⟩ := h.path i hi ei hei
    rw [hhash] at hnii hnid
    rcases Nat.lt_trichotomy ni n with hlt | heq | hgt
    · have := hno ni hlt
      rw [hnii, hstopi] at this
      cases this
    · rw [heq] at hnii
      exact hjl (hnii ▸ hi)
    · exact hjl (hnid n hgt)
  | some ek =>
    right
    have hjl : (H (key_bytes key ksize) % m.capacity + n) % m.capacity ∈ l := by
      rw [core_mem_iff h _ e he, hk]
      simp
    refine ⟨ek, rfl, hjl, ?_⟩
    rw [entry_at_some _ _ _ _ he hk, same_key_iff]
    simp only [find_stop, he, hk, memcmp_eq, decide_eq_true_eq] at hstop
    exact ⟨hstop.1, hstop.2.2⟩

/-! ## The reference model read through the slots -/

theorem same_key_trans (a b : Entry) (key : Key) (ksize : Nat)
    (ha : same_key a key ksize = true) (hb : same_key b key ksize = true) :
    same_key a b.key b.ksize = true := by
  rw [same_key_iff] at ha hb ⊢
  obtain ⟨h1, h2⟩ := ha
  obtain ⟨h3, h4⟩ := hb
  exact ⟨by omega, by rw [h3, h2, h4]⟩

theorem a_find_absent (bs : List bucket) (l : List Nat) (key : Key) (ksize : Nat)
    (hfresh : ∀ i ∈ l, same_key (entry_at bs i) key ksize = false) :
    (entries bs l).any (fun a => same_key a key ksize) = false ∧
      a_find (entries bs l) key ksize = none := by
  constructor
  · rw [List.any_eq_false]
    intro a ha
    obtain ⟨i, hi, rfl⟩ := List.mem_map.1 ha
    simp [hfresh i hi]
  · rw [a_find, List.find?_eq_none]
    intro a ha
    obtain ⟨i, hi, rfl⟩ := List.mem_map.1 ha
    simp [hfresh i hi]

theorem a_find_present {H : List Nat → Nat} {m : hashmap} {l : List Nat}
    {stop : Option Nat} (h : Core H m l stop) (key : Key) (ksize j : Nat) (hj : j ∈ l)
    (hsame : same_key (entry_at m.buckets j) key ksize = true) :
    (entries m.buckets l).any (fun a => same_key a key ksize) = true ∧
      a_find (entries m.buckets l) key ksize = some (entry_at m.buckets j) ∧
      ∀ x ∈ l, x ≠ j → same_key (entry_at m.buckets x) key ksize = false := by
  have hothers : ∀ x ∈ l, x ≠ j → same_key (entry_at m.buckets x) key ksize = false := by
    intro x hx hxj
    by_contra hcon
    have hcon : same_key (entry_at m.buckets x) key ksize = true := by simpa using hcon
    exact hxj (h.uniq x hx j hj (same_key_trans _ _ _ _ hcon hsame))
  refine ⟨?_, ?_, hothers⟩
  · rw [List.any_eq_true]
    exact ⟨entry_at m.buckets j, List.mem_map.2 ⟨j, hj, rfl⟩, hsame⟩
  · rw [a_find]
    cases hf : (entries m.buckets l).find? (fun a => same_key a key ksize) with
    | none =>
      rw [List.find?_eq_none] at hf
      have := hf (entry_at m.buckets j) (List.mem_map.2 ⟨j, hj, rfl⟩)
      simp [hsame] at this
    | some a =>
      have hp := List.find?_some hf
      obtain ⟨x, hx, rfl⟩ := List.mem_map.1 (List.mem_of_find?_eq_some hf)
      by_cases hxj : x = j
      · rw [hxj]
      · rw [hothers x hx hxj] at hp
        cases hp

/-! ## `hashmap_resize` -/

theorem set_last_next_set_comm (m : hashmap) (j : Nat) (e : bucket) (p : Option Nat)
    (hl : m.last ≠ LastPtr.slot j) :
    set_last_next { m with buckets := m.buckets.set j e } p
      = (set_last_next m p).map (fun m1 => { m1 with buckets := m1.buckets.set j e }) := by
  unfold set_last_next
  cases hlast : m.last with
  | head => simp
  | slot i =>
    have hij : j ≠ i := fun hji => hl (by rw [hlast, hji])
    simp only [List.getElem?_set_ne hij]
    cases hb : m.buckets[i]? with
    | none => simp
    | some ei =>
      simp only [Option.map_some']
      rw [List.set_comm _ _ _ hij]

theorem last_of_ne_slot (l : List Nat) (j : Nat) (hj : j ∉ l) : last_of l ≠ LastPtr.slot j := by
  rcases List.eq_nil_or_concat l with rfl | ⟨l0, i, rfl⟩
  · simp [last_of]
  · simp only [List.concat_eq_append] at hj ⊢
    rw [last_of_snoc]
    intro hs
    cases hs
    exact hj (by simp)

/-- The slot `resize_entry` copies an entry to: the first empty one on its probe path. -/
theorem resize_entry_core {H : List Nat → Nat} {mp : hashmap} {js : List Nat}
    {stop : Option Nat} (h : Core H mp js stop) (hroom : js.length < mp.capacity)
    (oe : bucket) :
    ∃ j, resize_entry mp oe = some ({ mp with buckets := mp.buckets.set j oe }, j) ∧
      j < mp.capacity ∧ j ∉ js ∧
      ∃ n, n < mp.capacity ∧ (oe.hash % mp.capacity + n) % mp.capacity = j ∧
        ∀ d, d < n → (oe.hash % mp.capacity + d) % mp.capacity ∈ js := by
  have hcap : 0 < mp.capacity := by have := h.cap; omega
  obtain ⟨j0, hj0, hj0l⟩ := exists_not_mem js mp.capacity hroom
  obtain ⟨e0, he0⟩ := get_of_lt mp.buckets j0 (by rw [h.len]; exact hj0)
  have hz := h.emp j0 e0 he0 hj0l
  have hstop0 : empty_stop mp.buckets j0 = true := by
    simp [empty_stop, he0, hz, zero_bucket]
  obtain ⟨n, hn, hscan, hstop, hno⟩ := scan_spec _ mp.capacity
    (oe.hash % mp.capacity) j0 (Nat.mod_lt _ hcap) hj0 hstop0
  have hjlt : (oe.hash % mp.capacity + n) % mp.capacity < mp.capacity := Nat.mod_lt _ hcap
  obtain ⟨e, he⟩ := get_of_lt mp.buckets _ (by rw [h.len]; exact hjlt)
  refine ⟨(oe.hash % mp.capacity + n) % mp.capacity, ?_, hjlt, ?_, n, hn, rfl, ?_⟩
  · rw [resize_entry, resize_entry_loop_eq mp oe h.len _ _ (Nat.mod_lt _ hcap), hscan]
    rfl
  · rw [core_mem_iff h _ e he]
    simp only [empty_stop, he, decide_eq_true_eq] at hstop
    simp [hstop]
  · intro d hd
    have hf := hno d hd
    obtain ⟨ed, hed⟩ := get_of_lt mp.buckets ((oe.hash % mp.capacity + d) % mp.capacity)
      (by rw [h.len]; exact Nat.mod_lt _ hcap)
    rw [core_mem_iff h _ ed hed]
    intro hnone
    simp only [empty_stop, hed, hnone] at hf
    simp at hf

/-- One round of the loop of `hashmap_resize`: the entry of the old slot `i0` moves to a
slot `j` of the new array, which is appended to the new list. -/
theorem resize_step {H : List Nat → Nat} {m : hashmap} {l : List Nat}
    (hold : Core H m l none) (i0 : Nat) (done rest js : List Nat) (mp : hashmap)
    (hl : l = done ++ i0 :: rest) (hp : Core H mp js (some i0))
    (hent : entries mp.buckets js = entries m.buckets done)
    (hroom : l.length < mp.capacity) :
    ∃ oe j m2, m.buckets[i0]? = some oe ∧ Chain m.buckets oe.next rest none ∧
      resize_entry mp oe = some ({ mp with buckets := mp.buckets.set j oe }, j) ∧
      set_last_next { mp with buckets := mp.buckets.set j oe } (some j) = some m2 ∧
      Core H { m2 with last := LastPtr.slot j } (js ++ [j]) oe.next ∧
      entries m2.buckets (js ++ [j]) = entries m.buckets (done ++ [i0]) ∧
      m2.capacity = mp.capacity ∧ m2.count = mp.count := by
  have hi0 : i0 ∈ l := by rw [hl]; simp
  obtain ⟨oe, ok, hoe, hok, hoh⟩ := hold.occ i0 hi0
  have hchain : Chain m.buckets oe.next rest none := by
    have hc := hold.chain
    rw [hl, chain_append] at hc
    obtain ⟨u, _, _, e, he, hc2⟩ := hc
    rw [hoe] at he
    cases he
    exact hc2
  have hlenjs : js.length = done.length := by
    have := congrArg List.length hent
    simpa [entries] using this
  have hroomjs : js.length < mp.capacity := by
    rw [hl] at hroom
    simp at hroom
    omega
  obtain ⟨j, hre, hj, hjl, hpath⟩ := resize_entry_core hp hroomjs oe
  obtain ⟨mq, hmq, hcq, hcapq, hcountq, hlastq, hlenq, hentq, _⟩ :=
    core_set_last_next hp (some j)
  have hlast_ne : mp.last ≠ LastPtr.slot j := by
    rw [hp.last]
    exact last_of_ne_slot js j hjl
  have hdone : ∀ x ∈ done, x ≠ i0 := by
    intro x hx hx0
    have hnd := hold.nodup
    rw [hl, List.nodup_append] at hnd
    exact hnd.2.2 hx (by rw [hx0]; simp) 
  have hfresh : ∀ i ∈ js, same_key (entry_at mq.buckets i) ok oe.ksize = false := by
    intro i hi
    rw [hentq]
    have hmem : entry_at mp.buckets i ∈ entries m.buckets done := by
      rw [← hent]
      exact List.mem_map.2 ⟨i, hi, rfl⟩
    obtain ⟨x, hx, hxe⟩ := List.mem_map.1 hmem
    rw [← hxe]
    by_contra hcon
    have hcon : same_key (entry_at m.buckets x) ok oe.ksize = true := by simpa using hcon
    have hxl : x ∈ l := by rw [hl]; exact List.mem_append_left _ hx
    have := hold.uniq x hxl i0 hi0 (by rw [entry_at_some _ _ _ _ hoe hok]; exact hcon)
    exact hdone x hx this
  have hw := core_write_new hcq oe ok
    { mq with buckets := mq.buckets.set j oe, last := LastPtr.slot j }
    (by rw [hcapq]; exact hj) hjl hok hoh (by rw [hcapq]; exact hpath) hfresh rfl rfl rfl rfl
  refine ⟨oe, j, { mq with buckets := mq.buckets.set j oe }, hoe, hchain, hre, ?_, hw.1, ?_,
    hcapq, hcountq⟩
  · rw [set_last_next_set_comm mp j oe (some j) hlast_ne, hmq]
    rfl
  · have h2 := hw.2
    simp only at h2 ⊢
    rw [h2]
    simp only [entries, List.map_append, List.map_cons, List.map_nil]
    rw [entry_at_some _ _ _ _ hoe hok]
    congr 1
    have : List.map (entry_at mq.buckets) js = List.map (entry_at mp.buckets) js :=
      List.map_congr_left (fun x _ => hentq x)
    rw [this]
    exact hent

theorem resize_loop_core {H : List Nat → Nat} {m : hashmap} {l : List Nat}
    (hold : Core H m l none) :
    ∀ (rest : List Nat) (i0 : Nat) (done js : List Nat) (mp : hashmap) (fuel : Nat),
      l = done ++ i0 :: rest → Core H mp js (some i0) →
      entries mp.buckets js = entries m.buckets done →
      l.length < mp.capacity → rest.length < fuel →
      ∃ m2 l2, resize_loop m.buckets fuel mp = some m2 ∧ Core H m2 l2 none ∧
        entries m2.buckets l2 = entries m.buckets l ∧ m2.capacity = mp.capacity ∧
        m2.count = mp.count := by
  intro rest
  induction rest with
  | nil =>
    intro i0 done js mp fuel hl hp hent hroom hfuel
    obtain ⟨oe, j, m2, hoe, hchain, hre, hsl, hcore, hentries, hcap, hcount⟩ :=
      resize_step hold i0 done [] js mp hl hp hent hroom
    obtain ⟨f, rfl⟩ : ∃ g, fuel = g + 1 := ⟨fuel - 1, by omega⟩
    have hnext : oe.next = none := hchain
    have hln := core_last_next hp
    have hln3 := core_last_next hcore
    refine ⟨{ m2 with last := LastPtr.slot j }, js ++ [j], ?_, by rw [← hnext]; exact hcore,
      by rw [hl]; exact hentries, hcap, hcount⟩
    simp [resize_loop, hln, hoe, hre, hsl, hln3, hnext]
  | cons i1 rest ih =>
    intro i0 done js mp fuel hl hp hent hroom hfuel
    obtain ⟨oe, j, m2, hoe, hchain, hre, hsl, hcore, hentries, hcap, hcount⟩ :=
      resize_step hold i0 done (i1 :: rest) js mp hl hp hent hroom
    obtain ⟨f, rfl⟩ : ∃ g, fuel = g + 1 := ⟨fuel - 1, by omega⟩
    have hnext : oe.next = some i1 := hchain.1
    have hln := core_last_next hp
    have hln3 := core_last_next hcore
    rw [hnext] at hcore hln3
    obtain ⟨m3, l3, hrun, hcore3, hent3, hcap3, hcount3⟩ :=
      ih i1 (done ++ [i0]) (js ++ [j]) { m2 with last := LastPtr.slot j } f
        (by rw [hl]; simp) hcore hentries (by simpa [hcap] using hroom)
        (by simp at hfuel; omega)
    refine ⟨m3, l3, ?_, hcore3, hent3, by rw [hcap3]; exact hcap, by rw [hcount3]; exact hcount⟩
    simp [resize_loop, hln, hoe, hre, hsl, hln3, hrun]

/-- `hashmap_resize` returns on every non-empty table that satisfies the invariant: it
doubles the capacity and keeps the count and the entries in list order. -/
theorem hashmap_resize_core {H : List Nat → Nat} {m : hashmap} {l : List Nat}
    (h : Inv H m l) (hne : l ≠ []) :
    ∃ m2 l2, hashmap_resize m = some m2 ∧ Core H m2 l2 none ∧
      entries m2.buckets l2 = entries m.buckets l ∧ m2.capacity = m.capacity * 2 ∧
      m2.count = m.count ∧ l2.length = l.length := by
  obtain ⟨i0, rest, rfl⟩ : ∃ i0 rest, l = i0 :: rest := by
    cases l with
    | nil => exact absurd rfl hne
    | cons a t => exact ⟨a, t, rfl⟩
  have hcore := h.core
  have hfirst : m.first = some i0 := hcore.chain.1
  have hcnt := h.count
  have hload := h.load
  have hcap := hcore.cap
  have hrestlen : rest.length < m.buckets.length := by
    rw [hcore.len]
    simp at hcnt
    omega
  have h0 : Core H
      { m with capacity := m.capacity * HASHMAP_RESIZE_FACTOR
               buckets := List.replicate (m.capacity * HASHMAP_RESIZE_FACTOR) zero_bucket
               last := LastPtr.head } [] (some i0) := by
    refine ⟨by simp, by simp [HASHMAP_RESIZE_FACTOR]; omega, hfirst, List.nodup_nil,
      by simp, ?_, rfl, by simp, by simp⟩
    intro i e he _
    simp only [List.getElem?_replicate] at he
    split at he
    · cases he; rfl
    · cases he
  obtain ⟨m2, l2, hrun, hcore2, hent2, hcap2, hcount2⟩ :=
    resize_loop_core hcore rest i0 [] [] _ m.buckets.length rfl h0 rfl
      (by simp [HASHMAP_RESIZE_FACTOR] at hcnt ⊢; omega) hrestlen
  refine ⟨m2, l2, hrun, hcore2, hent2, hcap2, hcount2, ?_⟩
  have := congrArg List.length hent2
  simpa [entries] using this

/-! ## The writers -/

theorem over_load_iff (count capacity : Nat) :
    over_load count capacity = true ↔ 3 * capacity < 4 * (count + 1) := by
  simp [over_load]

/-- The prologue of the writers returns, with room for one more entry. -/
theorem grow_core {H : List Nat → Nat} {m : hashmap} {l : List Nat} (h : Inv H m l) :
    ∃ m1 l1, grow_if_needed m = some m1 ∧ Core H m1 l1 none ∧
      entries m1.buckets l1 = entries m.buckets l ∧ l1.length = m.count ∧
      m1.count = m.count ∧ 4 * (m.count + 1) ≤ 3 * m1.capacity ∧
      m1.capacity = (if over_load m.count m.capacity = true then m.capacity * 2
        else m.capacity) := by
  have hcap := h.core.cap
  have hload := h.load
  have hcnt := h.count
  by_cases ho : over_load m.count m.capacity = true
  · have ho2 := (over_load_iff _ _).1 ho
    have hne : l ≠ [] := by
      intro hnil
      rw [hnil] at hcnt
      simp at hcnt
      omega
    obtain ⟨m2, l2, hr, hc, he, hcap2, hcount2, hlen2⟩ := hashmap_resize_core h hne
    refine ⟨m2, l2, by simp [grow_if_needed, ho, hr], hc, he, by omega, hcount2, by omega, ?_⟩
    rw [if_pos ho, hcap2]
  · have ho2 : ¬ 3 * m.capacity < 4 * (m.count + 1) := fun hlt => ho ((over_load_iff _ _).2 hlt)
    refine ⟨m, l, by simp [grow_if_needed, ho], h.core, rfl, hcnt, rfl, by omega, ?_⟩
    rw [if_neg ho]

/-- The branch `entry->key == NULL` of the writers. -/
theorem link_new_core {H : List Nat → Nat} {m : hashmap} {l : List Nat}
    (h : Core H m l none) (j : Nat) (key : Key) (ksize val : Nat)
    (hj : j < m.capacity) (hjl : j ∉ l)
    (hpath : ∃ n, n < m.capacity ∧
      (H (key_bytes key ksize) % m.capacity + n) % m.capacity = j ∧
      ∀ d, d < n → (H (key_bytes key ksize) % m.capacity + d) % m.capacity ∈ l)
    (hfresh : ∀ i ∈ l, same_key (entry_at m.buckets i) key ksize = false) :
    ∃ m2, link_new m j key ksize (H (key_bytes key ksize)) val = some m2 ∧
      Core H m2 (l ++ [j]) none ∧
      entries m2.buckets (l ++ [j]) = entries m.buckets l ++ [⟨key, ksize, val⟩] ∧
      m2.capacity = m.capacity ∧ m2.count = m.count + 1 := by
  obtain ⟨mq, hmq, hcq, hcapq, hcountq, _, hlenq, hentq, _⟩ := core_set_last_next h (some j)
  have hjq : j < mq.buckets.length := by rw [hlenq, h.len]; exact hj
  have hw := core_write_new hcq ⟨none, some key, ksize, H (key_bytes key ksize), val⟩ key
    { mq with last := LastPtr.slot j, count := mq.count + 1,
              buckets := mq.buckets.set j ⟨none, some key, ksize, H (key_bytes key ksize), val⟩ }
    (by rw [hcapq]; exact hj) hjl rfl rfl (by rw [hcapq]; exact hpath)
    (fun i hi => by rw [hentq]; exact hfresh i hi) rfl rfl rfl rfl
  refine ⟨_, ?_, hw.1, ?_, hcapq, by simp [hcountq]⟩
  · simp [link_new, hmq, List.getElem?_eq_getElem hjq]
  · rw [hw.2]
    congr 1
    exact List.map_congr_left (fun x _ => hentq x)

/-- The key and length of `op`, as an entry. -/
theorem fresh_key_of (op : Op) :
    op.fresh.key = op.key_of.1 ∧ op.fresh.ksize = op.key_of.2 := by
  cases op <;> exact ⟨rfl, rfl⟩

theorem a_apply_absent (L : List Entry) (op : Op)
    (h : L.any (fun a => same_key a op.key_of.1 op.key_of.2) = false) :
    a_apply L op = L ++ [op.fresh] := by
  simp [a_apply, h]

theorem a_apply_present (L : List Entry) (op : Op)
    (h : L.any (fun a => same_key a op.key_of.1 op.key_of.2) = true) :
    a_apply L op
      = L.map (fun a => if same_key a op.key_of.1 op.key_of.2 = true then op.overwrite a
          else a) := by
  simp only [a_apply, h, if_true]

/-- The reference model after rewriting the slot `j` that holds the key of `op`. -/
theorem entries_overwrite {H : List Nat → Nat} {m : hashmap} {l : List Nat}
    (h : Core H m l none) (op : Op) (j : Nat) (hj : j ∈ l)
    (hsame : same_key (entry_at m.buckets j) op.key_of.1 op.key_of.2 = true)
    (bs2 : List bucket) (hent : entry_at bs2 j = op.overwrite (entry_at m.buckets j))
    (hother : ∀ x, x ≠ j → entry_at bs2 x = entry_at m.buckets x) :
    entries bs2 l = a_apply (entries m.buckets l) op := by
  obtain ⟨hany, _, hothers⟩ := a_find_present h op.key_of.1 op.key_of.2 j hj hsame
  rw [a_apply_present _ _ hany]
  simp only [entries, List.map_map]
  apply List.map_congr_left
  intro x hx
  by_cases hxj : x = j
  · subst hxj
    simp [hsame, hent]
  · simp [hothers x hx hxj, hother x hxj]

/-! ## The operations against the reference model -/

theorem inv_room {H : List Nat → Nat} {m : hashmap} {l : List Nat} (h : Inv H m l) :
    l.length < m.capacity := by
  have h1 := h.count
  have h2 := h.load
  have h3 := h.core.cap
  omega

/-- What the three writers share up to the test `entry->key == NULL`. -/
theorem writer_locate {H : List Nat → Nat} {m : hashmap} {l : List Nat} (h : Inv H m l)
    (key : Key) (ksize : Nat) :
    ∃ m1 l1 j e, grow_if_needed m = some m1 ∧ Inv H m1 l1 ∧
      entries m1.buckets l1 = entries m.buckets l ∧
      4 * (m1.count + 1) ≤ 3 * m1.capacity ∧ m1.count = m.count ∧
      m1.capacity = (if over_load m.count m.capacity = true then m.capacity * 2
        else m.capacity) ∧
      find_entry m1 key ksize (H (key_bytes key ksize)) = some j ∧
      m1.buckets[j]? = some e ∧ j < m1.capacity ∧
      ((e.key = none ∧ j ∉ l1 ∧
          (∃ n, n < m1.capacity ∧
            (H (key_bytes key ksize) % m1.capacity + n) % m1.capacity = j ∧
            ∀ d, d < n → (H (key_bytes key ksize) % m1.capacity + d) % m1.capacity ∈ l1) ∧
          ∀ i ∈ l1, same_key (entry_at m1.buckets i) key ksize = false) ∨
        (∃ ek, e.key = some ek ∧ j ∈ l1 ∧
          same_key (entry_at m1.buckets j) key ksize = true)) := by
  obtain ⟨m1, l1, hg, hc, hent, hlen, hcount, hroom, hcapeq⟩ := grow_core h
  have hinv1 : Inv H m1 l1 := ⟨hc, by omega, by omega⟩
  obtain ⟨j, e, hfind, hje, hjlt, hcase⟩ := find_entry_core hc (inv_room hinv1) key ksize
  exact ⟨m1, l1, j, e, hg, hinv1, hent, by omega, hcount, hcapeq, hfind, hje, hjlt, hcase⟩

/-- The writer `op` on a table where its key is absent. -/
theorem absent_result {H : List Nat → Nat} {m : hashmap} {l : List Nat} (h : Inv H m l)
    (hroom : 4 * (m.count + 1) ≤ 3 * m.capacity) (op : Op) (j : Nat)
    (hj : j < m.capacity) (hjl : j ∉ l)
    (hpath : ∃ n, n < m.capacity ∧
      (H (key_bytes op.key_of.1 op.key_of.2) % m.capacity + n) % m.capacity = j ∧
      ∀ d, d < n →
        (H (key_bytes op.key_of.1 op.key_of.2) % m.capacity + d) % m.capacity ∈ l)
    (hfresh : ∀ i ∈ l, same_key (entry_at m.buckets i) op.key_of.1 op.key_of.2 = false) :
    ∃ m2, link_new m j op.key_of.1 op.key_of.2 (H (key_bytes op.key_of.1 op.key_of.2))
        op.fresh.value = some m2 ∧
      Rep H m2 (a_apply (entries m.buckets l) op) ∧ m2.capacity = m.capacity ∧
      m2.count = m.count + 1 := by
  obtain ⟨m2, hlink, hcore, hent, hcap, hcount⟩ :=
    link_new_core h.core j op.key_of.1 op.key_of.2 op.fresh.value hj hjl hpath hfresh
  refine ⟨m2, hlink, ⟨l ++ [j], ⟨hcore, ?_, ?_⟩, ?_⟩, hcap, hcount⟩
  · rw [hcount, ← h.count]
    simp
  · rw [hcount, hcap]
    exact hroom
  · rw [hent, a_apply_absent _ _ (a_find_absent _ _ _ _ hfresh).1]
    congr 1
    cases op <;> rfl

/-- The writer `op` on a table where the slot `j` holds its key. -/
theorem present_result {H : List Nat → Nat} {m : hashmap} {l : List Nat} (h : Inv H m l)
    (op : Op) (j : Nat) (e : bucket) (ek : Key) (hje : m.buckets[j]? = some e)
    (hk : e.key = some ek) (hjl : j ∈ l)
    (hsame : same_key (entry_at m.buckets j) op.key_of.1 op.key_of.2 = true) :
    Rep H (rewrite_slot m j e (op.overwrite ⟨ek, e.ksize, e.value⟩))
      (a_apply (entries m.buckets l) op) := by
  have hat := entry_at_some _ _ _ _ hje hk
  rw [hat, same_key_iff] at hsame
  simp only at hsame
  have hks : (op.overwrite ⟨ek, e.ksize, e.value⟩).ksize = e.ksize := by cases op <;> rfl
  have hbytes : key_bytes (op.overwrite ⟨ek, e.ksize, e.value⟩).key e.ksize
      = key_bytes ek e.ksize := by
    cases op with
    | set _ _ _ => rfl
    | get_set _ _ _ => rfl
    | set_free key ksize val usr =>
      simp only [Op.overwrite, Op.key_of] at hsame ⊢
      rw [hsame.1, hsame.2]
  obtain ⟨hcore, hentj, hother⟩ := core_update h.core j e ek
    (op.overwrite ⟨ek, e.ksize, e.value⟩).key (op.overwrite ⟨ek, e.ksize, e.value⟩).value
    (rewrite_slot m j e (op.overwrite ⟨ek, e.ksize, e.value⟩))
    hje hk hbytes rfl rfl rfl rfl
  refine ⟨l, ⟨hcore, h.count, h.load⟩, ?_⟩
  apply entries_overwrite h.core op j hjl
  · rw [hat, same_key_iff]
    exact hsame
  · rw [hentj, hat]
    cases op <;> rfl
  · exact hother

theorem bucket_set_value (e : bucket) (ek : Key) (hk : e.key = some ek) (v : Nat) :
    { e with value := v } = { e with key := some ek, value := v } := by
  cases e
  simp only at hk
  subst hk
  rfl

theorem set_same (bs : List bucket) (j : Nat) (e : bucket) (h : bs[j]? = some e) :
    bs.set j e = bs := by
  apply List.ext_getElem?
  intro i
  by_cases hij : j = i
  · subst hij
    rw [List.getElem?_set_self (lt_of_get _ _ _ h), h]
  · rw [List.getElem?_set_ne hij]

/-- `hashmap_set` returns, and does to the reference model what `a_apply` does. -/
theorem hashmap_set_spec {H : List Nat → Nat} {m : hashmap} {L : List Entry}
    (h : Rep H m L) (key : Key) (ksize val : Nat) :
    ∃ m2, hashmap_set H m key ksize val = some m2 ∧
      Rep H m2 (a_apply L (Op.set key ksize val)) ∧
      m2.capacity = (if over_load m.count m.capacity = true then m.capacity * 2
        else m.capacity) := by
  obtain ⟨l, hinv, rfl⟩ := h
  obtain ⟨m1, l1, j, e, hg, hinv1, hent, hroom, hcount, hcapeq, hfind, hje, hjlt, hcase⟩ :=
    writer_locate hinv key ksize
  rw [← hent]
  rcases hcase with ⟨hk, hjl, hpath, hfresh⟩ | ⟨ek, hk, hjl, hsame⟩
  · obtain ⟨m2, hlink, hrep, hcap2, _⟩ :=
      absent_result hinv1 hroom (Op.set key ksize val) j hjlt hjl hpath hfresh
    refine ⟨m2, ?_, hrep, by rw [hcap2, hcapeq]⟩
    simp only [Op.key_of, Op.fresh] at hlink
    simp [hashmap_set, hg, hfind, hje, hk, hlink]
  · have hrep := present_result hinv1 (Op.set key ksize val) j e ek hje hk hjl hsame
    simp only [Op.overwrite, rewrite_slot] at hrep
    refine ⟨_, ?_, hrep, hcapeq⟩
    simp [hashmap_set, hg, hfind, hje, hk, bucket_set_value e ek hk]

/-- `hashmap_get_set` returns; its result and the final `*out_in` are read off the
reference model. -/
theorem hashmap_get_set_spec {H : List Nat → Nat} {m : hashmap} {L : List Entry}
    (h : Rep H m L) (key : Key) (ksize out_in : Nat) :
    ∃ m2, hashmap_get_set H m key ksize out_in
        = some (m2, (match a_find L key ksize with
            | some a => (1, a.value)
            | none => (0, out_in))) ∧
      Rep H m2 (a_apply L (Op.get_set key ksize out_in)) ∧
      m2.capacity = (if over_load m.count m.capacity = true then m.capacity * 2
        else m.capacity) := by
  obtain ⟨l, hinv, rfl⟩ := h
  obtain ⟨m1, l1, j, e, hg, hinv1, hent, hroom, hcount, hcapeq, hfind, hje, hjlt, hcase⟩ :=
    writer_locate hinv key ksize
  rw [← hent]
  rcases hcase with ⟨hk, hjl, hpath, hfresh⟩ | ⟨ek, hk, hjl, hsame⟩
  · obtain ⟨m2, hlink, hrep, hcap2, _⟩ :=
      absent_result hinv1 hroom (Op.get_set key ksize out_in) j hjlt hjl hpath hfresh
    refine ⟨m2, ?_, hrep, by rw [hcap2, hcapeq]⟩
    simp only [Op.key_of, Op.fresh] at hlink
    rw [(a_find_absent _ _ _ _ hfresh).2]
    simp [hashmap_get_set, hg, hfind, hje, hk, hlink]
  · have hrep := present_result hinv1 (Op.get_set key ksize out_in) j e ek hje hk hjl hsame
    simp only [Op.overwrite, rewrite_slot] at hrep
    have hsame_e : ({ e with key := some ek, value := e.value } : bucket) = e := by
      cases e
      simp only at hk
      subst hk
      rfl
    rw [hsame_e, set_same _ _ _ hje] at hrep
    refine ⟨m1, ?_, hrep, hcapeq⟩
    rw [(a_find_present hinv1.core key ksize j hjl hsame).2.1, entry_at_some _ _ _ _ hje hk]
    simp [hashmap_get_set, hg, hfind, hje, hk]

/-- `hashmap_set_free` returns; the callback runs once, on the stored key reference and
value and on the table as it was before the overwrite, when the key is present, and not
at all when it is absent. -/
theorem hashmap_set_free_spec {H : List Nat → Nat} {m : hashmap} {L : List Entry}
    (h : Rep H m L) (key : Key) (ksize val usr : Nat) :
    ∃ m1 m2, grow_if_needed m = some m1 ∧ Rep H m1 L ∧
      hashmap_set_free H m key ksize val usr
        = some (m2, (match a_find L key ksize with
            | some a => [(m1, ⟨some a.key, ksize, a.value, usr⟩)]
            | none => [])) ∧
      Rep H m2 (a_apply L (Op.set_free key ksize val usr)) ∧
      m2.capacity = (if over_load m.count m.capacity = true then m.capacity * 2
        else m.capacity) := by
  obtain ⟨l, hinv, rfl⟩ := h
  obtain ⟨m1, l1, j, e, hg, hinv1, hent, hroom, hcount, hcapeq, hfind, hje, hjlt, hcase⟩ :=
    writer_locate hinv key ksize
  rw [← hent]
  rcases hcase with ⟨hk, hjl, hpath, hfresh⟩ | ⟨ek, hk, hjl, hsame⟩
  · obtain ⟨m2, hlink, hrep, hcap2, _⟩ :=
      absent_result hinv1 hroom (Op.set_free key ksize val usr) j hjlt hjl hpath hfresh
    refine ⟨m1, m2, hg, ⟨l1, hinv1, rfl⟩, ?_, hrep, by rw [hcap2, hcapeq]⟩
    simp only [Op.key_of, Op.fresh] at hlink
    rw [(a_find_absent _ _ _ _ hfresh).2]
    simp [hashmap_set_free, hg, hfind, hje, hk, hlink]
  · have hrep := present_result hinv1 (Op.set_free key ksize val usr) j e ek hje hk hjl hsame
    simp only [Op.overwrite, rewrite_slot] at hrep
    refine ⟨m1, _, hg, ⟨l1, hinv1, rfl⟩, ?_, hrep, hcapeq⟩
    rw [(a_find_present hinv1.core key ksize j hjl hsame).2.1, entry_at_some _ _ _ _ hje hk]
    simp [hashmap_set_free, hg, hfind, hje, hk]

/-- `hashmap_get` returns, with the value of the reference model, or `0` on a miss. -/
theorem hashmap_get_spec {H : List Nat → Nat} {m : hashmap} {L : List Entry}
    (h : Rep H m L) (key : Key) (ksize : Nat) :
    hashmap_get H m key ksize
      = some (match a_find L key ksize with
          | some a => (1, a.value)
          | none => (0, 0)) := by
  obtain ⟨l, hinv, rfl⟩ := h
  obtain ⟨j, e, hfind, hje, hjlt, hcase⟩ := find_entry_core hinv.core (inv_room hinv) key ksize
  rcases hcase with ⟨hk, hjl, hpath, hfresh⟩ | ⟨ek, hk, hjl, hsame⟩
  · have hz := hinv.core.emp j e hje hjl
    rw [(a_find_absent _ _ _ _ hfresh).2]
    simp [hashmap_get, hfind, hje, hz, zero_bucket]
  · rw [(a_find_present hinv.core key ksize j hjl hsame).2.1, entry_at_some _ _ _ _ hje hk]
    simp [hashmap_get, hfind, hje, hk]

/-- Every writer returns on a table that represents `L`, with a table that represents
`a_apply L op`. -/
theorem apply_op_spec {H : List Nat → Nat} {m : hashmap} {L : List Entry}
    (h : Rep H m L) (op : Op) :
    ∃ m2, apply_op H m op = some m2 ∧ Rep H m2 (a_apply L op) ∧
      m2.capacity = (if over_load m.count m.capacity = true then m.capacity * 2
        else m.capacity) := by
  cases op with
  | set key ksize val => exact hashmap_set_spec h key ksize val
  | get_set key ksize out_in =>
    obtain ⟨m2, hr, hrep, hcap⟩ := hashmap_get_set_spec h key ksize out_in
    exact ⟨m2, by simp [apply_op, hr], hrep, hcap⟩
  | set_free key ksize val usr =>
    obtain ⟨_, m2, _, _, hr, hrep, hcap⟩ := hashmap_set_free_spec h key ksize val usr
    exact ⟨m2, by simp [apply_op, hr], hrep, hcap⟩

theorem rep_create (H : List Nat → Nat) : Rep H hashmap_create [] := by
  refine ⟨[], ⟨⟨rfl, by decide, rfl, List.nodup_nil, by simp, ?_, rfl, by simp, by simp⟩,
    rfl, by decide⟩, rfl⟩
  intro i e he _
  simp only [hashmap_create, List.getElem?_replicate] at he
  split at he
  · cases he; rfl
  · cases he

theorem foldl_a_apply_snoc (L : List Entry) (ops : List Op) (op : Op) :
    List.foldl a_apply L (ops ++ [op]) = a_apply (List.foldl a_apply L ops) op := by
  simp [List.foldl_append]

/-- Every sequence of writer calls returns, from a table that represents `L`. -/
theorem run_spec (H : List Nat → Nat) :
    ∀ (ops : List Op) (m : hashmap) (L : List Entry), Rep H m L →
      ∃ m2, run H ops m = some m2 ∧ Rep H m2 (List.foldl a_apply L ops) := by
  intro ops
  induction ops with
  | nil => intro m L h; exact ⟨m, rfl, h⟩
  | cons op ops ih =>
    intro m L h
    obtain ⟨m1, h1, hrep1, _⟩ := apply_op_spec h op
    obtain ⟨m2, h2, hrep2⟩ := ih m1 _ hrep1
    exact ⟨m2, by simp [run, h1, h2], hrep2⟩

theorem run_create_spec (H : List Nat → Nat) (ops : List Op) :
    ∃ m, run H ops hashmap_create = some m ∧ Rep H m (model ops) :=
  run_spec H ops hashmap_create [] (rep_create H)

theorem reachable_rep {H : List Nat → Nat} {m : hashmap} (h : Reachable H m) :
    ∃ ops, run H ops hashmap_create = some m ∧ Rep H m (model ops) := by
  obtain ⟨ops, hrun⟩ := h
  obtain ⟨m2, h2, hrep⟩ := run_create_spec H ops
  rw [hrun] at h2
  cases h2
  exact ⟨ops, hrun, hrep⟩

theorem run_append (H : List Nat → Nat) :
    ∀ (ops1 ops2 : List Op) (m : hashmap),
      run H (ops1 ++ ops2) m = (run H ops1 m).bind (run H ops2) := by
  intro ops1
  induction ops1 with
  | nil => intro ops2 m; rfl
  | cons op ops1 ih =>
    intro ops2 m
    simp only [List.cons_append, run]
    cases h : apply_op H m op with
    | none => rfl
    | some m1 => simp [ih]

/-! ## The reference model -/

theorem same_key_key_id (a : Entry) (key : Key) (ksize : Nat) :
    same_key a key ksize = true ↔ key_id a.key a.ksize = key_id key ksize := by
  rw [same_key_iff]
  simp only [key_id, Prod.mk.injEq]
  constructor
  · rintro ⟨h1, h2⟩
    subst h1
    exact ⟨rfl, h2⟩
  · rintro ⟨h1, h2⟩
    subst h1
    exact ⟨rfl, h2⟩

theorem same_key_false_key_id (a : Entry) (key : Key) (ksize : Nat) :
    same_key a key ksize = false ↔ key_id a.key a.ksize ≠ key_id key ksize := by
  rw [Ne, ← same_key_key_id]
  simp

theorem key_id_fresh (op : Op) :
    key_id op.fresh.key op.fresh.ksize = key_id op.key_of.1 op.key_of.2 := by
  cases op <;> rfl

theorem key_id_overwrite (op : Op) (a : Entry)
    (h : key_id a.key a.ksize = key_id op.key_of.1 op.key_of.2) :
    key_id (op.overwrite a).key (op.overwrite a).ksize = key_id a.key a.ksize := by
  cases op with
  | set _ _ _ => rfl
  | get_set _ _ _ => rfl
  | set_free key ksize val usr =>
    simp only [Op.key_of, key_id, Prod.mk.injEq] at h
    simp only [Op.overwrite, key_id, Prod.mk.injEq, true_and]
    rw [h.2, h.1]

theorem model_snoc (ops : List Op) (op : Op) :
    model (ops ++ [op]) = a_apply (model ops) op := by
  simp [model, List.foldl_append]

theorem a_find_some_iff_any (L : List Entry) (key : Key) (ksize : Nat) :
    L.any (fun a => same_key a key ksize) = true ↔ (a_find L key ksize).isSome = true := by
  rw [a_find, List.find?_isSome, List.any_eq_true]

theorem a_find_none_of_any (L : List Entry) (key : Key) (ksize : Nat)
    (h : L.any (fun a => same_key a key ksize) = false) : a_find L key ksize = none := by
  cases hf : a_find L key ksize with
  | none => rfl
  | some a =>
    have := (a_find_some_iff_any L key ksize).2 (by rw [hf]; rfl)
    rw [h] at this
    cases this

theorem a_find_same (L : List Entry) (key : Key) (ksize : Nat) (a : Entry)
    (h : a_find L key ksize = some a) : key_id a.key a.ksize = key_id key ksize := by
  rw [← same_key_key_id]
  unfold a_find at h
  have := List.find?_some h
  simpa using this

theorem a_find_congr (L : List Entry) (k1 k2 : Key) (s1 s2 : Nat)
    (h : key_id k1 s1 = key_id k2 s2) : a_find L k1 s1 = a_find L k2 s2 := by
  unfold a_find
  congr 1
  funext a
  rw [Bool.eq_iff_iff, same_key_key_id, same_key_key_id, h]

/-- A lookup in the reference model after one writer call. -/
theorem a_find_apply (L : List Entry) (op : Op) (key : Key) (ksize : Nat) :
    a_find (a_apply L op) key ksize
      = if key_id op.key_of.1 op.key_of.2 = key_id key ksize then
          some (match a_find L key ksize with
            | some a => op.overwrite a
            | none => op.fresh)
        else a_find L key ksize := by
  by_cases hany : L.any (fun a => same_key a op.key_of.1 op.key_of.2) = true
  · rw [a_apply_present _ _ hany]
    have hmap : a_find (L.map (fun a => if same_key a op.key_of.1 op.key_of.2 = true
        then op.overwrite a else a)) key ksize
        = (a_find L key ksize).map (fun a => if same_key a op.key_of.1 op.key_of.2 = true
            then op.overwrite a else a) := by
      unfold a_find
      rw [List.find?_map]
      congr 2
      funext a
      simp only [Function.comp]
      by_cases hs : same_key a op.key_of.1 op.key_of.2 = true
      · rw [if_pos hs, Bool.eq_iff_iff, same_key_key_id, same_key_key_id,
          key_id_overwrite op a ((same_key_key_id _ _ _).1 hs)]
      · rw [if_neg hs]
    rw [hmap]
    by_cases hk : key_id op.key_of.1 op.key_of.2 = key_id key ksize
    · rw [if_pos hk]
      have hsome : (a_find L key ksize).isSome = true := by
        rw [← a_find_congr L _ _ _ _ hk]
        exact (a_find_some_iff_any _ _ _).1 hany
      obtain ⟨a, ha⟩ := Option.isSome_iff_exists.1 hsome
      have hs : same_key a op.key_of.1 op.key_of.2 = true := by
        rw [same_key_key_id, hk]
        exact a_find_same _ _ _ _ ha
      simp [ha, hs]
    · rw [if_neg hk]
      cases ha : a_find L key ksize with
      | none => rfl
      | some a =>
        have hs : ¬ same_key a op.key_of.1 op.key_of.2 = true := by
          rw [same_key_key_id, a_find_same _ _ _ _ ha]
          exact fun h => hk h.symm
        simp [hs]
  · have hany : L.any (fun a => same_key a op.key_of.1 op.key_of.2) = false := by
      simpa using hany
    rw [a_apply_absent _ _ hany]
    unfold a_find
    rw [List.find?_append]
    by_cases hk : key_id op.key_of.1 op.key_of.2 = key_id key ksize
    · rw [if_pos hk]
      have hnone : a_find L key ksize = none := by
        rw [← a_find_congr L _ _ _ _ hk]
        exact a_find_none_of_any _ _ _ hany
      have hs : same_key op.fresh key ksize = true := by
        rw [same_key_key_id, key_id_fresh, hk]
      unfold a_find at hnone
      rw [hnone]
      simp [hs]
    · rw [if_neg hk]
      have hs : same_key op.fresh key ksize = false := by
        rw [same_key_false_key_id, key_id_fresh]
        exact hk
      simp [hs]

theorem a_apply_length (L : List Entry) (op : Op) :
    (a_apply L op).length
      = match a_find L op.key_of.1 op.key_of.2 with
        | some _ => L.length
        | none => L.length + 1 := by
  by_cases hany : L.any (fun a => same_key a op.key_of.1 op.key_of.2) = true
  · rw [a_apply_present _ _ hany]
    obtain ⟨a, ha⟩ := Option.isSome_iff_exists.1 ((a_find_some_iff_any _ _ _).1 hany)
    simp [ha]
  · have hany : L.any (fun a => same_key a op.key_of.1 op.key_of.2) = false := by
      simpa using hany
    rw [a_apply_absent _ _ hany, a_find_none_of_any _ _ _ hany]
    simp

theorem rep_count {H : List Nat → Nat} {m : hashmap} {L : List Entry} (h : Rep H m L) :
    m.count = L.length := by
  obtain ⟨l, hinv, rfl⟩ := h
  rw [← hinv.count]
  simp [entries]

/-- The scan `held` of the slots agrees with the lookup in the reference model. -/
theorem held_spec {H : List Nat → Nat} {m : hashmap} {L : List Entry} (h : Rep H m L)
    (key : Key) (ksize : Nat) : held m key ksize = a_find L key ksize := by
  obtain ⟨l, hinv, rfl⟩ := h
  have hc := hinv.core
  unfold held
  cases hf : stored m key ksize with
  | none =>
    unfold stored at hf
    rw [List.find?_eq_none] at hf
    have hfresh : ∀ i ∈ l, same_key (entry_at m.buckets i) key ksize = false := by
      intro i hi
      obtain ⟨e, k, he, hk, _⟩ := hc.occ i hi
      have := hf e (List.getElem?_mem he)
      rw [entry_at_some _ _ _ _ he hk]
      simpa [hk, same_key, memcmp_eq] using this
    rw [(a_find_absent _ _ _ _ hfresh).2]
    rfl
  | some e =>
    unfold stored at hf
    have hp := List.find?_some hf
    obtain ⟨j, hj⟩ := List.mem_iff_getElem?.1 (List.mem_of_find?_eq_some hf)
    cases hk : e.key with
    | none => simp [hk] at hp
    | some ek =>
      have hjl : j ∈ l := by
        rw [core_mem_iff hc j e hj, hk]
        simp
      have hsame : same_key (entry_at m.buckets j) key ksize = true := by
        rw [entry_at_some _ _ _ _ hj hk]
        simpa [hk, same_key, memcmp_eq] using hp
      rw [(a_find_present hc key ksize j hjl hsame).2.1, entry_at_some _ _ _ _ hj hk]
      simp [bucket.entry, hk]

/-! ## Keys of the reference model, occupied slots, iteration -/

theorem a_apply_ids (L : List Entry) (op : Op) :
    (a_apply L op).map (fun a => key_id a.key a.ksize)
      = if key_id op.key_of.1 op.key_of.2 ∈ L.map (fun a => key_id a.key a.ksize) then
          L.map (fun a => key_id a.key a.ksize)
        else L.map (fun a => key_id a.key a.ksize) ++ [key_id op.key_of.1 op.key_of.2] := by
  by_cases hany : L.any (fun a => same_key a op.key_of.1 op.key_of.2) = true
  · have hmem : key_id op.key_of.1 op.key_of.2 ∈ L.map (fun a => key_id a.key a.ksize) := by
      obtain ⟨a, ha, hs⟩ := List.any_eq_true.1 hany
      exact List.mem_map.2 ⟨a, ha, (same_key_key_id _ _ _).1 hs⟩
    rw [if_pos hmem, a_apply_present _ _ hany, List.map_map]
    apply List.map_congr_left
    intro a _
    simp only [Function.comp]
    by_cases hs : same_key a op.key_of.1 op.key_of.2 = true
    · rw [if_pos hs, key_id_overwrite op a ((same_key_key_id _ _ _).1 hs)]
    · rw [if_neg hs]
  · have hany : L.any (fun a => same_key a op.key_of.1 op.key_of.2) = false := by
      simpa using hany
    have hmem : key_id op.key_of.1 op.key_of.2 ∉ L.map (fun a => key_id a.key a.ksize) := by
      intro hm
      obtain ⟨a, ha, hs⟩ := List.mem_map.1 hm
      have := List.any_eq_false.1 hany a ha
      exact this ((same_key_key_id _ _ _).2 hs)
    rw [if_neg hmem, a_apply_absent _ _ hany, List.map_append, List.map_cons, List.map_nil,
      key_id_fresh]

/-- The keys of the reference model are pairwise distinct and are those of the calls. -/
theorem model_ids (ops : List Op) :
    ((model ops).map (fun a => key_id a.key a.ksize)).Nodup ∧
      ∀ x, x ∈ (model ops).map (fun a => key_id a.key a.ksize) ↔
        x ∈ ops.map (fun op => key_id op.key_of.1 op.key_of.2) := by
  induction ops using List.reverseRecOn with
  | nil => simp [model]
  | append_singleton ops op ih =>
    rw [model_snoc, a_apply_ids]
    by_cases hmem : key_id op.key_of.1 op.key_of.2
        ∈ (model ops).map (fun a => key_id a.key a.ksize)
    · rw [if_pos hmem]
      refine ⟨ih.1, fun x => ?_⟩
      rw [List.map_append, List.mem_append, ← ih.2 x]
      constructor
      · exact fun h => Or.inl h
      · rintro (h | h)
        · exact h
        · simp only [List.map_cons, List.map_nil, List.mem_singleton] at h
          rw [h]
          exact hmem
    · rw [if_neg hmem]
      refine ⟨?_, fun x => ?_⟩
      · rw [List.nodup_append]
        refine ⟨ih.1, by simp, ?_⟩
        intro a ha hb
        simp only [List.mem_singleton] at hb
        exact hmem (hb ▸ ha)
      · rw [List.map_append, List.mem_append, List.mem_append, ih.2 x]
        rfl

theorem model_length (ops : List Op) : (model ops).length = distinct_keys ops := by
  obtain ⟨hnd, hmem⟩ := model_ids ops
  have h1 : ((model ops).map (fun a => key_id a.key a.ksize)).toFinset.card
      = (model ops).length := by
    rw [List.toFinset_card_of_nodup hnd, List.length_map]
  have h2 : ((model ops).map (fun a => key_id a.key a.ksize)).toFinset
      = (ops.map (fun op => key_id op.key_of.1 op.key_of.2)).toFinset := by
    ext x
    rw [List.mem_toFinset, List.mem_toFinset]
    exact hmem x
  rw [← h1, h2, List.card_toFinset]
  rfl

theorem occupied_slots_eq {H : List Nat → Nat} {m : hashmap} {l : List Nat}
    (h : Inv H m l) : occupied_slots m = l.length := by
  have hc := h.core
  unfold occupied_slots
  apply List.Perm.length_eq
  rw [List.perm_ext_iff_of_nodup ((List.nodup_range _).filter _) hc.nodup]
  intro i
  rw [List.mem_filter, List.mem_range]
  constructor
  · rintro ⟨hi, hq⟩
    obtain ⟨e, he⟩ := get_of_lt m.buckets i (by rw [hc.len]; exact hi)
    rw [core_mem_iff hc i e he]
    simpa [he] using hq
  · intro hi
    obtain ⟨e, k, he, hk, _⟩ := hc.occ i hi
    exact ⟨core_mem_lt hc i hi, by simp [he, hk]⟩

theorem rep_occupied {H : List Nat → Nat} {m : hashmap} {L : List Entry} (h : Rep H m L) :
    occupied_slots m = m.count := by
  obtain ⟨l, hinv, _⟩ := h
  rw [occupied_slots_eq hinv, hinv.count]

theorem iterate_loop_chain (bs : List bucket) (usr : Nat) :
    ∀ (l : List Nat) (s : Option Nat) (fuel co : Nat), Chain bs s l none →
      (∀ i ∈ l, ∃ e k, bs[i]? = some e ∧ e.key = some k) → fuel + co = 1002 → 0 < fuel →
      iterate_loop bs usr fuel s co
        = some ((l.take fuel).map (fun i => call_of usr (entry_at bs i))) := by
  intro l
  induction l with
  | nil =>
    intro s fuel co hc _ _ hf
    obtain ⟨f, rfl⟩ : ∃ g, fuel = g + 1 := ⟨fuel - 1, by omega⟩
    have hs : s = none := hc
    subst hs
    simp [iterate_loop]
  | cons i l ih =>
    intro s fuel co hc hocc hsum hf
    obtain ⟨f, rfl⟩ : ∃ g, fuel = g + 1 := ⟨fuel - 1, by omega⟩
    obtain ⟨hs, e, he, hc2⟩ := hc
    subst hs
    obtain ⟨e2, k, he2, hk⟩ := hocc i (List.mem_cons_self _ _)
    rw [he2] at he
    cases he
    have he := he2
    have hcall : (⟨e.key, e.ksize, e.value, usr⟩ : Call) = call_of usr (entry_at bs i) := by
      rw [entry_at_some _ _ _ _ he hk, hk]
      rfl
    by_cases hco : co > 1000
    · have hf0 : f = 0 := by omega
      subst hf0
      simp [iterate_loop, he, hco, hcall]
    · have hrec := ih e.next f (co + 1) hc2
        (fun x hx => hocc x (List.mem_cons_of_mem _ hx)) (by omega) (by omega)
      simp [iterate_loop, he, hco, hcall, hrec]

/-- `hashmap_iterate` returns, after calling the callback on the first 1002 entries of the
insertion order, and on no other. -/
theorem hashmap_iterate_spec {H : List Nat → Nat} {m : hashmap} {L : List Entry}
    (h : Rep H m L) (usr : Nat) :
    hashmap_iterate m usr = some ((L.take 1002).map (call_of usr)) := by
  obtain ⟨l, hinv, rfl⟩ := h
  have hc := hinv.core
  rw [hashmap_iterate, iterate_loop_chain m.buckets usr l m.first 1002 0 hc.chain
    (fun i hi => by
      obtain ⟨e, k, he, hk, _⟩ := hc.occ i hi
      exact ⟨e, k, he, hk⟩) rfl (by decide)]
  simp only [entries, List.map_take, List.map_map]
  rfl

/-! ## Sequences of calls with pairwise distinct keys -/

/-- Insertions of pairwise distinct keys all return; the capacity depends only on their
number. -/
theorem run_distinct (H : List Nat → Nat) (ops : List Op)
    (hnd : (ops.map (fun op => key_id op.key_of.1 op.key_of.2)).Nodup) :
    ∃ m, run H ops hashmap_create = some m ∧ Rep H m (ops.map Op.fresh) ∧
      m.capacity = cap_after ops.length := by
  induction ops using List.reverseRecOn with
  | nil => exact ⟨hashmap_create, rfl, rep_create H, rfl⟩
  | append_singleton ops op ih =>
    rw [List.map_append, List.nodup_append] at hnd
    obtain ⟨m, hrun, hrep, hcap⟩ := ih hnd.1
    obtain ⟨m2, happ, hrep2, hcap2⟩ := apply_op_spec hrep op
    have hany : (ops.map Op.fresh).any (fun a => same_key a op.key_of.1 op.key_of.2)
        = false := by
      rw [List.any_eq_false]
      intro a ha hs
      obtain ⟨o, ho, rfl⟩ := List.mem_map.1 ha
      rw [same_key_key_id, key_id_fresh] at hs
      exact hnd.2.2 (List.mem_map.2 ⟨o, ho, hs⟩) (by simp)
    rw [a_apply_absent _ _ hany] at hrep2
    refine ⟨m2, ?_, by simpa using hrep2, ?_⟩
    · rw [run_append, hrun]
      simp [run, happ]
    · have hcount := rep_count hrep
      rw [List.length_map] at hcount
      rw [hcap2, hcount, hcap, List.length_append, List.length_singleton, cap_after]
      rfl

theorem a_find_fresh (ops : List Op)
    (hnd : (ops.map (fun op => key_id op.key_of.1 op.key_of.2)).Nodup) (op : Op)
    (hop : op ∈ ops) :
    a_find (ops.map Op.fresh) op.key_of.1 op.key_of.2 = some op.fresh := by
  cases hf : a_find (ops.map Op.fresh) op.key_of.1 op.key_of.2 with
  | none =>
    unfold a_find at hf
    rw [List.find?_eq_none] at hf
    have := hf op.fresh (List.mem_map.2 ⟨op, hop, rfl⟩)
    simp only [Bool.not_eq_true] at this
    rw [same_key_false_key_id, key_id_fresh] at this
    exact absurd rfl this
  | some a =>
    have hid := a_find_same _ _ _ _ hf
    unfold a_find at hf
    obtain ⟨o, ho, rfl⟩ := List.mem_map.1 (List.mem_of_find?_eq_some hf)
    rw [key_id_fresh] at hid
    have : o = op := List.inj_on_of_nodup_map hnd ho hop hid
    rw [this]

/-! ## The last write -/

theorem last_set_spec (sets : List (Key × Nat × Nat)) (key : Key) (ksize : Nat) :
    (a_find (model (set_ops sets)) key ksize).map (fun a => a.value)
      = last_set sets key ksize := by
  induction sets using List.reverseRecOn with
  | nil => rfl
  | append_singleton sets o ih =>
    have h1 : set_ops (sets ++ [o]) = set_ops sets ++ [Op.set o.1 o.2.1 o.2.2] := by
      simp [set_ops]
    rw [h1, model_snoc, a_find_apply]
    simp only [Op.key_of, last_set, List.reverse_append, List.reverse_cons, List.reverse_nil,
      List.nil_append, List.singleton_append, List.find?_cons]
    by_cases hk : key_id o.1 o.2.1 = key_id key ksize
    · rw [if_pos hk]
      simp only [hk, decide_True]
      cases a_find (model (set_ops sets)) key ksize <;> rfl
    · rw [if_neg hk]
      simp only [hk, decide_False]
      exact ih

/-! ## Facts shared by the contract theorems -/

theorem rep_empty_zero {H : List Nat → Nat} {m : hashmap} {L : List Entry} (h : Rep H m L) :
    ∀ e ∈ m.buckets, e.key = none → e.value = 0 := by
  obtain ⟨l, hinv, _⟩ := h
  intro e he hk
  obtain ⟨j, hj⟩ := List.mem_iff_getElem?.1 he
  have hjl : j ∉ l := by
    rw [core_mem_iff hinv.core j e hj, hk]
    simp
  rw [hinv.core.emp j e hj hjl]
  rfl

theorem many_sets_nodup (n : Nat) :
    ((set_ops (many_sets n)).map (fun op => key_id op.key_of.1 op.key_of.2)).Nodup := by
  have h : (set_ops (many_sets n)).map (fun op => key_id op.key_of.1 op.key_of.2)
      = (List.range n).map (fun i => (2, [i % 256, i / 256])) := by
    simp only [set_ops, many_sets, List.map_map]
    apply List.map_congr_left
    intro i _
    rfl
  rw [h]
  apply List.Nodup.map _ (List.nodup_range n)
  intro i j hij
  simp only [Prod.mk.injEq, List.cons.injEq, and_true, true_and] at hij
  omega

theorem set_ops_ids (sets : List (Key × Nat × Nat)) :
    (set_ops sets).map (fun op => key_id op.key_of.1 op.key_of.2)
      = sets.map (fun o => key_id o.1 o.2.1) := by
  simp only [set_ops, List.map_map]
  rfl

theorem set_ops_fresh (sets : List (Key × Nat × Nat)) :
    (set_ops sets).map Op.fresh = sets.map (fun o => ⟨o.1, o.2.1, o.2.2⟩) := by
  simp only [set_ops, List.map_map]
  rfl

theorem nodup_take_ids (sets : List (Key × Nat × Nat)) (n : Nat)
    (hnd : (sets.map (fun o => key_id o.1 o.2.1)).Nodup) :
    ((set_ops (sets.take n)).map (fun op => key_id op.key_of.1 op.key_of.2)).Nodup := by
  rw [set_ops_ids, List.map_take]
  exact hnd.sublist (List.take_sublist _ _)

/-! ## The list and the slots of a table that satisfies the invariant -/

theorem walk_chain (bs : List bucket) :
    ∀ (l : List Nat) (s : Option Nat) (fuel : Nat), Chain bs s l none → l.length ≤ fuel →
      walk bs fuel s = some l := by
  intro l
  induction l with
  | nil =>
    intro s fuel hc _
    have hs : s = none := hc
    subst hs
    cases fuel <;> rfl
  | cons i l ih =>
    intro s fuel hc hf
    obtain ⟨hs, e, he, hc2⟩ := hc
    subst hs
    obtain ⟨f, rfl⟩ : ∃ g, fuel = g + 1 := ⟨fuel - 1, by simp at hf; omega⟩
    simp [walk, he, ih e.next f hc2 (by simp at hf; omega)]

theorem inv_slots_in_order {H : List Nat → Nat} {m : hashmap} {l : List Nat}
    (h : Inv H m l) : slots_in_order m = some l := by
  rw [slots_in_order]
  exact walk_chain _ l _ _ h.core.chain (by rw [h.count])

theorem inv_entries_in_order {H : List Nat → Nat} {m : hashmap} {l : List Nat}
    (h : Inv H m l) :
    entries_in_order m = some ((entries m.buckets l).map (content_of H)) := by
  rw [entries_in_order, inv_slots_in_order h]
  simp only [Option.map_some', entries, List.map_map]
  congr 1
  apply List.map_congr_left
  intro i hi
  obtain ⟨e, k, he, hk, hh⟩ := h.core.occ i hi
  simp only [Function.comp, List.getD_eq_getElem?_getD, he, Option.getD_some,
    entry_at_some _ _ _ _ he hk, bucket.content, content_of, hk, hh]

/-- The list of a table that represents `L` holds the entries of `L`, in that order. -/
theorem rep_entries_in_order {H : List Nat → Nat} {m : hashmap} {L : List Entry}
    (h : Rep H m L) : entries_in_order m = some (L.map (content_of H)) := by
  obtain ⟨l, hinv, rfl⟩ := h
  exact inv_entries_in_order hinv

/-- `hashmap_resize` on a non-empty table that represents `L`. -/
theorem rep_resize {H : List Nat → Nat} {m : hashmap} {L : List Entry} (h : Rep H m L)
    (hne : L ≠ []) :
    ∃ m2, hashmap_resize m = some m2 ∧ Rep H m2 L ∧ m2.capacity = m.capacity * 2 ∧
      m2.count = m.count := by
  obtain ⟨l, hinv, rfl⟩ := h
  have hl : l ≠ [] := by
    intro hnil
    apply hne
    rw [hnil]
    rfl
  obtain ⟨m2, l2, hr, hc, he, hcap, hcount, hlen⟩ := hashmap_resize_core hinv hl
  refine ⟨m2, hr, ⟨l2, ⟨hc, ?_, ?_⟩, he⟩, hcap, hcount⟩
  · rw [hlen, hcount, hinv.count]
  · have := hinv.load
    rw [hcount, hcap]
    omega

theorem a_apply_ne_nil (L : List Entry) (op : Op) : a_apply L op ≠ [] := by
  intro h
  have hlen := a_apply_length L op
  rw [h] at hlen
  cases hf : a_find L op.key_of.1 op.key_of.2 with
  | none =>
    rw [hf] at hlen
    simp at hlen
  | some a =>
    rw [hf] at hlen
    simp only [List.length_nil] at hlen
    have hL : L = [] := List.length_eq_zero.1 hlen.symm
    rw [hL] at hf
    cases hf

theorem model_snoc_ne_nil (ops : List Op) (op : Op) : model (ops ++ [op]) ≠ [] := by
  rw [model_snoc]
  exact a_apply_ne_nil _ _

/-- The keys of the reference model are those of the calls, in the order of their first
occurrence. -/
theorem model_first_inserted (ops : List Op) :
    (model ops).map (fun a => key_id a.key a.ksize)
      = first_inserted (ops.map (fun op => key_id op.key_of.1 op.key_of.2)) := by
  induction ops using List.reverseRecOn with
  | nil => rfl
  | append_singleton ops op ih =>
    rw [model_snoc, a_apply_ids, ih]
    simp [first_inserted, List.foldl_append]

theorem content_key_id (H : List Nat → Nat) (a : Entry) :
    (content_of H a).key_id = key_id a.key a.ksize := rfl

/-- A table that satisfies the invariant satisfies the invariant of open addressing. -/
theorem core_open_addressing {H : List Nat → Nat} {m : hashmap} {l : List Nat}
    {stop : Option Nat} (h : Core H m l stop) : OpenAddressing H m := by
  intro i e k he hk
  have hi : i ∈ l := by
    rw [core_mem_iff h i e he, hk]
    simp
  obtain ⟨e1, k1, he1, hk1, hh⟩ := h.occ i hi
  rw [he] at he1
  cases he1
  rw [hk] at hk1
  cases hk1
  refine ⟨hh, ?_, ?_⟩
  · obtain ⟨n, hn, hni, hnd⟩ := h.path i hi e he
    refine ⟨n, hn, hni, fun d hd => ?_⟩
    obtain ⟨e2, k2, he2, hk2, _⟩ := h.occ _ (hnd d hd)
    exact ⟨e2, k2, he2, hk2⟩
  · intro j e2 k2 he2 hk2 hid
    have hj : j ∈ l := by
      rw [core_mem_iff h j e2 he2, hk2]
      simp
    apply h.uniq j hj i hi
    rw [entry_at_some _ _ _ _ he2 hk2, entry_at_some _ _ _ _ he hk, same_key_key_id]
    exact hid

theorem rep_open_addressing {H : List Nat → Nat} {m : hashmap} {L : List Entry}
    (h : Rep H m L) : OpenAddressing H m := by
  obtain ⟨l, hinv, _⟩ := h
  exact core_open_addressing hinv.core

/-- The probe of `find_entry` stops within `capacity` steps, whatever the hash, at an
empty slot or at a slot that matches in length, hash and bytes. -/
theorem find_entry_stops {H : List Nat → Nat} {m : hashmap} {L : List Entry}
    (h : Rep H m L) (key : Key) (ksize hash : Nat) :
    ∃ n j e, n < m.capacity ∧ j = (hash % m.capacity + n) % m.capacity ∧
      find_entry m key ksize hash = some j ∧
      (∀ fuel, n < fuel →
        find_entry_loop m key ksize hash fuel (hash % m.capacity) = some j) ∧
      m.buckets[j]? = some e ∧
      (e.key = none ∨ ∃ ek, e.key = some ek ∧ e.ksize = ksize ∧ e.hash = hash ∧
        key_bytes ek ksize = key_bytes key ksize) := by
  obtain ⟨l, hinv, _⟩ := h
  have hc := hinv.core
  have hcap : 0 < m.capacity := by have := hc.cap; omega
  obtain ⟨j0, hj0, hj0l⟩ := exists_not_mem l m.capacity (inv_room hinv)
  obtain ⟨e0, he0⟩ := get_of_lt m.buckets j0 (by rw [hc.len]; exact hj0)
  have hz := hc.emp j0 e0 he0 hj0l
  have hstop0 : find_stop m.buckets key ksize hash j0 = true := by
    simp [find_stop, he0, hz, zero_bucket]
  obtain ⟨n, hn, hsn, hno⟩ := probe_exists _ m.capacity (hash % m.capacity) j0
    (Nat.mod_lt _ hcap) hj0 hstop0
  have hjlt : (hash % m.capacity + n) % m.capacity < m.capacity := Nat.mod_lt _ hcap
  obtain ⟨e, he⟩ := get_of_lt m.buckets _ (by rw [hc.len]; exact hjlt)
  have hloop : ∀ fuel, n < fuel →
      find_entry_loop m key ksize hash fuel (hash % m.capacity)
        = some ((hash % m.capacity + n) % m.capacity) := by
    intro fuel hf
    rw [find_entry_loop_eq m key ksize hash hc.len _ _ (Nat.mod_lt _ hcap)]
    exact scan_steps _ m.capacity hcap n fuel _ (Nat.mod_lt _ hcap) hf hno hsn
  refine ⟨n, _, e, hn, rfl, hloop m.capacity hn, hloop, he, ?_⟩
  cases hk : e.key with
  | none => exact Or.inl rfl
  | some ek =>
    right
    simp only [find_stop, he, hk, memcmp_eq, decide_eq_true_eq] at hsn
    exact ⟨ek, rfl, hsn.1, hsn.2.1, hsn.2.2⟩

theorem resize_empty (m : hashmap) (h : m.first = none) : hashmap_resize m = none := by
  simp only [hashmap_resize]
  cases m.buckets.length with
  | zero => rfl
  | succ f => simp [resize_loop, last_next, h]

theorem inv_first {H : List Nat → Nat} {m : hashmap} {l : List Nat} (h : Inv H m l)
    (hcount : 0 < m.count) : m.first ≠ none := by
  cases l with
  | nil =>
    have := h.count
    simp at this
    omega
  | cons i l =>
    have hf : m.first = some i := h.core.chain.1
    rw [hf]
    simp

/-! ## The frame of an overwrite -/

theorem a_find_of_mem_ids (L : List Entry) (key : Key) (ksize : Nat)
    (h : key_id key ksize ∈ L.map (fun a => key_id a.key a.ksize)) :
    ∃ a, a_find L key ksize = some a := by
  obtain ⟨a, ha, hid⟩ := List.mem_map.1 h
  apply Option.isSome_iff_exists.1
  rw [← a_find_some_iff_any, List.any_eq_true]
  exact ⟨a, ha, (same_key_key_id _ _ _).2 hid⟩

/-- A writer whose key is held by the entry `a` rewrites `a` in place and leaves the
entries before and after it alone. -/
theorem a_apply_split (L : List Entry) (op : Op) (a : Entry)
    (hnd : (L.map (fun a => key_id a.key a.ksize)).Nodup)
    (hfind : a_find L op.key_of.1 op.key_of.2 = some a) :
    ∃ pre post, L = pre ++ a :: post ∧ a_apply L op = pre ++ op.overwrite a :: post := by
  have hany : L.any (fun a => same_key a op.key_of.1 op.key_of.2) = true := by
    rw [a_find_some_iff_any, hfind]
    rfl
  have hida := a_find_same _ _ _ _ hfind
  unfold a_find at hfind
  rw [List.find?_eq_some] at hfind
  obtain ⟨hpa, pre, post, hL, hpre⟩ := hfind
  refine ⟨pre, post, hL, ?_⟩
  rw [a_apply_present _ _ hany, hL, List.map_append, List.map_cons]
  rw [hL, List.map_append, List.map_cons, List.nodup_append] at hnd
  obtain ⟨_, hnd2, hdisj⟩ := hnd
  rw [List.nodup_cons] at hnd2
  have hpre2 : pre.map (fun x => if same_key x op.key_of.1 op.key_of.2 = true
      then op.overwrite x else x) = pre := by
    conv => rhs; rw [← List.map_id pre]
    apply List.map_congr_left
    intro x hx
    have := hpre x hx
    simp only [Bool.not_eq_true', id] at this ⊢
    simp [this]
  have hpost2 : post.map (fun x => if same_key x op.key_of.1 op.key_of.2 = true
      then op.overwrite x else x) = post := by
    conv => rhs; rw [← List.map_id post]
    apply List.map_congr_left
    intro x hx
    have hxs : ¬ same_key x op.key_of.1 op.key_of.2 = true := by
      intro hs
      rw [same_key_key_id, ← hida] at hs
      exact hnd2.1 (List.mem_map.2 ⟨x, hx, hs⟩)
    simp [hxs]
  rw [hpre2, hpost2, if_pos hpa]

/-- The content of the slot of an entry after a writer has rewritten it: the key length
and the cached hash stay. -/
theorem content_overwrite (H : List Nat → Nat) (op : Op) (a : Entry)
    (h : key_id a.key a.ksize = key_id op.key_of.1 op.key_of.2) :
    content_of H (op.overwrite a)
      = { content_of H a with key := some (op.overwrite a).key
                              value := (op.overwrite a).value } := by
  have hid := key_id_overwrite op a h
  simp only [key_id, Prod.mk.injEq] at hid
  obtain ⟨h1, h2⟩ := hid
  rw [h1] at h2
  simp only [content_of, h1, h2]

/-- The table before and after a writer call whose key an earlier call has inserted. -/
theorem overwrite_split {H : List Nat → Nat} (ops : List Op) (op : Op)
    (hpresent : key_id op.key_of.1 op.key_of.2
      ∈ ops.map (fun o => key_id o.key_of.1 o.key_of.2)) :
    ∃ m m2 pre a post, run H ops hashmap_create = some m ∧ apply_op H m op = some m2 ∧
      key_id a.key a.ksize = key_id op.key_of.1 op.key_of.2 ∧
      entries_in_order m = some (pre ++ content_of H a :: post) ∧
      entries_in_order m2 = some (pre ++ content_of H (op.overwrite a) :: post) ∧
      m2.count = m.count := by
  obtain ⟨m, hrun, hrep⟩ := run_create_spec H ops
  obtain ⟨m2, happ, hrep2, _⟩ := apply_op_spec hrep op
  obtain ⟨hnd, hmem⟩ := model_ids ops
  obtain ⟨a, ha⟩ := a_find_of_mem_ids (model ops) _ _ ((hmem _).2 hpresent)
  obtain ⟨pre, post, hL, hL2⟩ := a_apply_split (model ops) op a hnd ha
  refine ⟨m, m2, pre.map (content_of H), a, post.map (content_of H), hrun, happ,
    a_find_same _ _ _ _ ha, ?_, ?_, ?_⟩
  · rw [rep_entries_in_order hrep, hL, List.map_append, List.map_cons]
  · rw [rep_entries_in_order hrep2, hL2, List.map_append, List.map_cons]
  · rw [rep_count hrep2, rep_count hrep, a_apply_length, ha]

/-! ## Facts shared by the behaviour theorems -/

theorem model_ne_nil (op : Op) (ops : List Op) : model (op :: ops) ≠ [] := by
  rcases List.eq_nil_or_concat (op :: ops) with h | ⟨l, o, h⟩
  · cases h
  · rw [h, List.concat_eq_append]
    exact model_snoc_ne_nil l o

theorem run_cons (H : List Nat → Nat) (op : Op) (ops : List Op) (m : hashmap) :
    run H (op :: ops) m = (apply_op H m op).bind (run H ops) := rfl

theorem run_snoc (H : List Nat → Nat) (ops : List Op) (op : Op) (m m1 : hashmap)
    (h : run H ops m = some m1) : run H (ops ++ [op]) m = apply_op H m1 op := by
  rw [run_append, h]
  simp only [Option.some_bind, run]
  cases apply_op H m1 op <;> rfl

theorem distinct_keys_nodup (ops : List Op)
    (hnd : (ops.map (fun op => key_id op.key_of.1 op.key_of.2)).Nodup) :
    distinct_keys ops = ops.length := by
  rw [distinct_keys, hnd.dedup, List.length_map]

theorem many_sets_length (n : Nat) : (set_ops (many_sets n)).length = n := by
  simp [set_ops, many_sets]

theorem content_call (H : List Nat → Nat) (usr : Nat) (a : Entry) :
    (content_of H a).call usr = call_of usr a := rfl

/-- `hashmap_iterate` in terms of the list of the table. -/
theorem rep_iterate {H : List Nat → Nat} {m : hashmap} {L : List Entry} (h : Rep H m L)
    (usr : Nat) :
    ∃ es, entries_in_order m = some es ∧ es.length = m.count ∧
      hashmap_iterate m usr = some ((es.take 1002).map (Content.call usr)) := by
  refine ⟨L.map (content_of H), rep_entries_in_order h, ?_, ?_⟩
  · rw [List.length_map, rep_count h]
  · rw [hashmap_iterate_spec h, ← List.map_take, List.map_map]
    rfl

theorem set_free_of_apply (H : List Nat → Nat) (m m2 : hashmap) (key : Key)
    (ksize val usr : Nat) (h : apply_op H m (Op.set_free key ksize val usr) = some m2) :
    ∃ calls, hashmap_set_free H m key ksize val usr = some (m2, calls) := by
  simp only [apply_op, Option.map_eq_some'] at h
  obtain ⟨⟨m3, calls⟩, h1, h2⟩ := h
  simp only at h2
  subst h2
  exact ⟨calls, h1⟩

theorem get_set_of_apply (H : List Nat → Nat) (m m2 : hashmap) (key : Key)
    (ksize out_in : Nat) (h : apply_op H m (Op.get_set key ksize out_in) = some m2) :
    ∃ r out, hashmap_get_set H m key ksize out_in = some (m2, r, out) := by
  simp only [apply_op, Option.map_eq_some'] at h
  obtain ⟨⟨m3, r, out⟩, h1, h2⟩ := h
  simp only at h2
  subst h2
  exact ⟨r, out, h1⟩

/-- A writer call on a key that three earlier insertions have put into a fresh table
doubles the capacity and keeps the size. -/
theorem grow_present (H : List Nat → Nat) (sets : List (Key × Nat × Nat)) (op : Op)
    (hlen : sets.length = 3) (hnd : (sets.map (fun o => key_id o.1 o.2.1)).Nodup)
    (hop : key_id op.key_of.1 op.key_of.2 ∈ sets.map (fun o => key_id o.1 o.2.1)) :
    ∃ m m2, run H (set_ops sets) hashmap_create = some m ∧ m.count = 3 ∧ m.capacity = 5 ∧
      apply_op H m op = some m2 ∧ m2.capacity = 10 ∧ hashmap_size m2 = 3 := by
  have hnd2 : ((set_ops sets).map (fun op => key_id op.key_of.1 op.key_of.2)).Nodup := by
    rw [set_ops_ids]
    exact hnd
  obtain ⟨m, hrun, hrep, hcap⟩ := run_distinct H (set_ops sets) hnd2
  have hl : (set_ops sets).length = 3 := by simp [set_ops, hlen]
  have hcount : m.count = 3 := by rw [rep_count hrep, List.length_map, hl]
  have hcap5 : m.capacity = 5 := by
    rw [hcap, hl]
    decide
  obtain ⟨m2, happ, hrep2, hcap2⟩ := apply_op_spec hrep op
  refine ⟨m, m2, hrun, hcount, hcap5, happ, ?_, ?_⟩
  · rw [hcap2, hcount, hcap5]
    decide
  · have hmem : key_id op.key_of.1 op.key_of.2
        ∈ ((set_ops sets).map Op.fresh).map (fun a => key_id a.key a.ksize) := by
      rw [List.map_map]
      have : (fun a => key_id a.key a.ksize) ∘ Op.fresh
          = fun o => key_id o.key_of.1 o.key_of.2 := by
        funext o
        exact key_id_fresh o
      rw [this, set_ops_ids]
      exact hop
    obtain ⟨a, ha⟩ := a_find_of_mem_ids _ _ _ hmem
    rw [hashmap_size, rep_count hrep2, a_apply_length, ha, List.length_map, hl]

/-! ## The contract -/

/-- C1, last write wins, for any hash function `H`: every sequence of `hashmap_set` calls on
a table from `hashmap_create` returns, and `hashmap_get` on the resulting table returns 1
with the value of the last call whose key is byte-equal to the key looked up, and 0 when
there is no such call. -/
theorem last_write_wins (H : List Nat → Nat) (sets : List (Key × Nat × Nat)) (key : Key)
    (ksize : Nat) :
    ∃ m, run H (set_ops sets) hashmap_create = some m ∧
      hashmap_get H m key ksize
        = some (match last_set sets key ksize with
            | some v => (1, v)
            | none => (0, 0)) := by
  obtain ⟨m, hrun, hrep⟩ := run_create_spec H (set_ops sets)
  refine ⟨m, hrun, ?_⟩
  rw [hashmap_get_spec hrep, ← last_set_spec]
  cases a_find (model (set_ops sets)) key ksize <;> rfl

/-- C2 at the failing input: after 2000 calls of `hashmap_set` with pairwise distinct keys
the table holds 2000 entries, and `hashmap_iterate` calls the callback 1002 times only. -/
theorem iterate_stops_short :
    ∃ m, run hash_data16 (set_ops (many_sets 2000)) hashmap_create = some m ∧
      hashmap_size m = 2000 ∧ (hashmap_iterate m 0).map List.length = some 1002 := by
  obtain ⟨m, hrun, hrep, _⟩ := run_distinct hash_data16 _ (many_sets_nodup 2000)
  have hcount := rep_count hrep
  have hlen : ((set_ops (many_sets 2000)).map Op.fresh).length = 2000 := by
    simp [set_ops, many_sets]
  refine ⟨m, hrun, by rw [hashmap_size, hcount, hlen], ?_⟩
  rw [hashmap_iterate_spec hrep]
  simp only [Option.map_some', List.length_map, List.length_take, hlen]
  rfl

/-- C3, eviction callback: on the table `m` reached by any sequence of writer calls,
`hashmap_set_free` returns; it calls the callback once when the key is present, with the
stored key reference, the key length, the stored value and `usr`, on a table `m1` that
still holds that entry, and not at all when the key is absent; afterwards `hashmap_get`
returns 1 and the new value. -/
theorem eviction_callback (H : List Nat → Nat) (ops : List Op) (key : Key)
    (ksize v2 usr : Nat) :
    ∃ m m1 m2, run H ops hashmap_create = some m ∧ grow_if_needed m = some m1 ∧
      hashmap_set_free H m key ksize v2 usr
        = some (m2, (match held m key ksize with
            | some a => [(m1, ⟨some a.key, ksize, a.value, usr⟩)]
            | none => [])) ∧
      held m1 key ksize = held m key ksize ∧
      hashmap_get H m2 key ksize = some (1, v2) := by
  obtain ⟨m, hrun, hrep⟩ := run_create_spec H ops
  obtain ⟨m1, m2, hg, hrep1, hsf, hrep2, _⟩ := hashmap_set_free_spec hrep key ksize v2 usr
  refine ⟨m, m1, m2, hrun, hg, ?_, ?_, ?_⟩
  · rw [held_spec hrep]
    exact hsf
  · rw [held_spec hrep, held_spec hrep1]
  · rw [hashmap_get_spec hrep2, a_find_apply]
    simp only [Op.key_of, if_true]
    cases a_find (model ops) key ksize <;> rfl

/-- C4, upsert: on the table `m` reached by any sequence of writer calls, `hashmap_get_set`
returns.  When the key is absent it returns 0, stores the caller's value under the key
and the size grows by one; when the key is present with the entry `a` it returns 1, the
caller's slot receives the stored value, and the entry and the size are unchanged.  In
both cases `hashmap_get` then returns what the caller's slot holds. -/
theorem upsert_correct (H : List Nat → Nat) (ops : List Op) (key : Key) (ksize v : Nat) :
    ∃ m m2 r out, run H ops hashmap_create = some m ∧
      hashmap_get_set H m key ksize v = some (m2, r, out) ∧
      (r, out, held m2 key ksize, hashmap_size m2)
        = (match held m key ksize with
          | none => (0, v, some ⟨key, ksize, v⟩, hashmap_size m + 1)
          | some a => (1, a.value, some a, hashmap_size m)) ∧
      hashmap_get H m2 key ksize = some (1, out) := by
  obtain ⟨m, hrun, hrep⟩ := run_create_spec H ops
  obtain ⟨m2, hgs, hrep2, _⟩ := hashmap_get_set_spec hrep key ksize v
  have hfind := a_find_apply (model ops) (Op.get_set key ksize v) key ksize
  simp only [Op.key_of, if_true] at hfind
  have hlen := a_apply_length (model ops) (Op.get_set key ksize v)
  simp only [Op.key_of] at hlen
  refine ⟨m, m2, _, _, hrun, hgs, ?_, ?_⟩
  · rw [held_spec hrep, held_spec hrep2, hfind, hashmap_size, hashmap_size, rep_count hrep,
      rep_count hrep2, hlen]
    cases a_find (model ops) key ksize <;> rfl
  · rw [hashmap_get_spec hrep2, hfind]
    cases a_find (model ops) key ksize <;> rfl

/-- C5, lookup miss: on the table reached by any sequence of writer calls, `hashmap_get`
returns; for a key the table does not hold it returns 0 and writes the word 0, and every
empty slot of the table holds the value 0. -/
theorem lookup_miss (H : List Nat → Nat) (ops : List Op) (key : Key) (ksize : Nat) :
    ∃ m, run H ops hashmap_create = some m ∧
      hashmap_get H m key ksize
        = some (match held m key ksize with
            | none => (0, 0)
            | some a => (1, a.value)) ∧
      ∀ e ∈ m.buckets, e.key = none → e.value = 0 := by
  obtain ⟨m, hrun, hrep⟩ := run_create_spec H ops
  refine ⟨m, hrun, ?_, rep_empty_zero hrep⟩
  rw [hashmap_get_spec hrep, held_spec hrep]
  cases a_find (model ops) key ksize <;> rfl

/-- C7, size counts distinct keys: on the table `m` reached by a sequence of writer calls,
`hashmap_size` is the number of distinct keys of the sequence and the number of slots with
a non-null key; one more writer call leaves the size alone when its key is present and
adds one when it is absent. -/
theorem size_counts_distinct_keys (H : List Nat → Nat) (ops : List Op) (op : Op) :
    ∃ m m2, run H ops hashmap_create = some m ∧ apply_op H m op = some m2 ∧
      hashmap_size m = distinct_keys ops ∧ hashmap_size m = occupied_slots m ∧
      hashmap_size m2
        = (match held m op.key_of.1 op.key_of.2 with
          | some _ => hashmap_size m
          | none => hashmap_size m + 1) := by
  obtain ⟨m, hrun, hrep⟩ := run_create_spec H ops
  obtain ⟨m2, happ, hrep2, _⟩ := apply_op_spec hrep op
  refine ⟨m, m2, hrun, happ, ?_, ?_, ?_⟩
  · rw [hashmap_size, rep_count hrep, model_length]
  · rw [hashmap_size, rep_occupied hrep]
  · rw [hashmap_size, hashmap_size, rep_count hrep2, rep_count hrep, a_apply_length,
      held_spec hrep]

/-- C8, resize scenario: after six `hashmap_set` calls with pairwise distinct keys on a
table from `hashmap_create` the capacity is 10, the size is 6, and `hashmap_get` finds
each of the six keys with the value it was set to. -/
theorem resize_scenario (H : List Nat → Nat) (sets : List (Key × Nat × Nat))
    (hlen : sets.length = 6) (hnd : (sets.map (fun o => key_id o.1 o.2.1)).Nodup) :
    ∃ m, run H (set_ops sets) hashmap_create = some m ∧ m.capacity = 10 ∧
      hashmap_size m = 6 ∧ ∀ o ∈ sets, hashmap_get H m o.1 o.2.1 = some (1, o.2.2) := by
  have hnd2 : ((set_ops sets).map (fun op => key_id op.key_of.1 op.key_of.2)).Nodup := by
    rw [set_ops_ids]
    exact hnd
  obtain ⟨m, hrun, hrep, hcap⟩ := run_distinct H (set_ops sets) hnd2
  have hl : (set_ops sets).length = 6 := by simp [set_ops, hlen]
  refine ⟨m, hrun, ?_, ?_, ?_⟩
  · rw [hcap, hl]
    decide
  · rw [hashmap_size, rep_count hrep, List.length_map, hl]
  · intro o ho
    have hop : Op.set o.1 o.2.1 o.2.2 ∈ set_ops sets := List.mem_map.2 ⟨o, ho, rfl⟩
    have := a_find_fresh (set_ops sets) hnd2 _ hop
    simp only [Op.key_of] at this
    rw [hashmap_get_spec hrep, this]
    rfl

/-- The resize scenario on six two-byte keys, with the 16-bit hash of the source. -/
theorem resize_scenario_witness :
    (many_sets 6).length = 6 ∧
      ∃ m, run hash_data16 (set_ops (many_sets 6)) hashmap_create = some m ∧
        m.capacity = 10 ∧ hashmap_size m = 6 ∧
        ∀ o ∈ many_sets 6, hashmap_get hash_data16 m o.1 o.2.1 = some (1, o.2.2) :=
  ⟨by decide, resize_scenario hash_data16 (many_sets 6) (by decide) (by decide)⟩

/-- C9 as stated fails: with four distinct keys the capacity is 10 after the fourth
insert, so it is not 5 after each of the first five inserts. -/
theorem growth_before_sixth_insert :
    ¬ (∀ n, n ≤ 5 →
        (run hash_data16 (set_ops (many_sets n)) hashmap_create).map (fun m => m.capacity)
          = some HASHMAP_DEFAULT_CAPACITY) := by
  intro h
  have h4 := h 4 (by decide)
  revert h4
  decide

/-- C9 amended: when pairwise distinct keys are inserted one at a time into a table from
`hashmap_create`, the first resize is forced by the fourth insert: the capacity is 5 after
each of the first three inserts and 10 after the fourth. -/
theorem first_growth_on_fourth_insert (H : List Nat → Nat) (sets : List (Key × Nat × Nat))
    (hlen : 4 ≤ sets.length) (hnd : (sets.map (fun o => key_id o.1 o.2.1)).Nodup) :
    (∀ n, n ≤ 3 → ∃ m, run H (set_ops (sets.take n)) hashmap_create = some m ∧
        m.capacity = 5) ∧
      ∃ m, run H (set_ops (sets.take 4)) hashmap_create = some m ∧ m.capacity = 10 := by
  have hcap : ∀ n, n ≤ sets.length → ∃ m,
      run H (set_ops (sets.take n)) hashmap_create = some m ∧ m.capacity = cap_after n := by
    intro n hn
    obtain ⟨m, hrun, _, hc⟩ := run_distinct H _ (nodup_take_ids sets n hnd)
    refine ⟨m, hrun, ?_⟩
    rw [hc]
    simp [set_ops, List.length_take, hn]
  constructor
  · intro n hn
    obtain ⟨m, hrun, hc⟩ := hcap n (by omega)
    refine ⟨m, hrun, ?_⟩
    rw [hc]
    have : n = 0 ∨ n = 1 ∨ n = 2 ∨ n = 3 := by omega
    rcases this with rfl | rfl | rfl | rfl <;> decide
  · obtain ⟨m, hrun, hc⟩ := hcap 4 hlen
    refine ⟨m, hrun, ?_⟩
    rw [hc]
    decide

/-- The first growth on six two-byte keys, with the 16-bit hash of the source. -/
theorem first_growth_on_fourth_insert_witness :
    4 ≤ (many_sets 6).length ∧
      (∀ n, n ≤ 3 → ∃ m,
        run hash_data16 (set_ops ((many_sets 6).take n)) hashmap_create = some m ∧
          m.capacity = 5) ∧
      ∃ m, run hash_data16 (set_ops ((many_sets 6).take 4)) hashmap_create = some m ∧
        m.capacity = 10 :=
  ⟨by decide, first_growth_on_fourth_insert hash_data16 (many_sets 6) (by decide) (by decide)⟩

/-- C10, concrete scenario, for any hash function and any addresses of the keys: after
`hashmap_set` of the keys "a", "b", "c" of length 1 with the values 1, 2, 3 on a table
from `hashmap_create`, `hashmap_get` of "b" returns 1 and the value 2, `hashmap_iterate`
calls the callback on ("a", 1), ("b", 2), ("c", 3) in that order and on nothing else, and
`hashmap_size` returns 3. -/
theorem concrete_scenario (H : List Nat → Nat) (pa pb pc pq usr : Nat) :
    ∃ m, run H [Op.set ⟨pa, [97, 0]⟩ 1 1, Op.set ⟨pb, [98, 0]⟩ 1 2, Op.set ⟨pc, [99, 0]⟩ 1 3]
        hashmap_create = some m ∧
      hashmap_get H m ⟨pq, [98, 0]⟩ 1 = some (1, 2) ∧
      hashmap_iterate m usr
        = some [⟨some ⟨pa, [97, 0]⟩, 1, 1, usr⟩, ⟨some ⟨pb, [98, 0]⟩, 1, 2, usr⟩,
            ⟨some ⟨pc, [99, 0]⟩, 1, 3, usr⟩] ∧
      hashmap_size m = 3 := by
  obtain ⟨m, hrun, hrep, _⟩ := run_distinct H
    [Op.set ⟨pa, [97, 0]⟩ 1 1, Op.set ⟨pb, [98, 0]⟩ 1 2, Op.set ⟨pc, [99, 0]⟩ 1 3]
    (by simp [Op.key_of, key_id, key_bytes])
  refine ⟨m, hrun, ?_, ?_, ?_⟩
  · rw [hashmap_get_spec hrep]
    simp [a_find, Op.fresh, same_key, key_bytes]
  · rw [hashmap_iterate_spec hrep]
    rfl
  · rw [hashmap_size, rep_count hrep]
    rfl

/-! ## The behaviour of the operations -/

/-- C11, overwrite frame of `hashmap_set`: on the table reached by a sequence of writer
calls one of which has inserted a key byte-equal to `key[0..ksize)`, `hashmap_set` returns
and changes only the value of the entry `d` of that key: the stored key reference, the key
length and the cached hash of `d`, its position in the list, the entries before and after
it, and the count are unchanged. -/
theorem set_overwrite_frame (H : List Nat → Nat) (ops : List Op) (key : Key)
    (ksize val : Nat)
    (hpresent : key_id key ksize ∈ ops.map (fun o => key_id o.key_of.1 o.key_of.2)) :
    ∃ m m2 pre d post, run H ops hashmap_create = some m ∧
      hashmap_set H m key ksize val = some m2 ∧
      entries_in_order m = some (pre ++ d :: post) ∧
      (∃ k0, d.key = some k0 ∧ key_id k0 d.ksize = key_id key ksize) ∧
      entries_in_order m2 = some (pre ++ { d with value := val } :: post) ∧
      hashmap_size m2 = hashmap_size m := by
  obtain ⟨m, m2, pre, a, post, hrun, happ, hid, he, he2, hcount⟩ :=
    overwrite_split ops (Op.set key ksize val) hpresent
  rw [content_overwrite H _ a hid] at he2
  exact ⟨m, m2, pre, content_of H a, post, hrun, happ, he, ⟨a.key, rfl, hid⟩, he2, hcount⟩

/-- The overwrite frame on three two-byte keys, with the 16-bit hash of the source. -/
theorem set_overwrite_frame_witness :
    key_id ⟨77, [1, 0]⟩ 2
        ∈ (set_ops (many_sets 3)).map (fun o => key_id o.key_of.1 o.key_of.2) ∧
      ∃ m m2 pre d post, run hash_data16 (set_ops (many_sets 3)) hashmap_create = some m ∧
        hashmap_set hash_data16 m ⟨77, [1, 0]⟩ 2 9 = some m2 ∧
        entries_in_order m = some (pre ++ d :: post) ∧
        (∃ k0, d.key = some k0 ∧ key_id k0 d.ksize = key_id ⟨77, [1, 0]⟩ 2) ∧
        entries_in_order m2 = some (pre ++ { d with value := 9 } :: post) ∧
        hashmap_size m2 = hashmap_size m :=
  ⟨by decide, set_overwrite_frame hash_data16 (set_ops (many_sets 3)) ⟨77, [1, 0]⟩ 2 9
    (by decide)⟩

/-- C12, resize preserves content and order: on the table `m` reached by one or more
writer calls, `hashmap_resize` returns; it doubles the capacity, leaves the count alone,
keeps the list of entries (key reference, key length, cached hash and value of each, in
the same order), and `hashmap_get` returns the same for every key before and after. -/
theorem resize_preserves (H : List Nat → Nat) (op : Op) (ops : List Op) :
    ∃ m m2 es, run H (op :: ops) hashmap_create = some m ∧ hashmap_resize m = some m2 ∧
      m2.capacity = m.capacity * 2 ∧ m.capacity < m2.capacity ∧ m2.count = m.count ∧
      entries_in_order m = some es ∧ entries_in_order m2 = some es ∧
      ∀ key ksize, hashmap_get H m2 key ksize = hashmap_get H m key ksize := by
  obtain ⟨m, hrun, hrep⟩ := run_create_spec H (op :: ops)
  obtain ⟨m2, hres, hrep2, hcap, hcount⟩ := rep_resize hrep (model_ne_nil op ops)
  refine ⟨m, m2, _, hrun, hres, hcap, ?_, hcount, rep_entries_in_order hrep,
    rep_entries_in_order hrep2, ?_⟩
  · obtain ⟨l, hinv, _⟩ := hrep
    have := hinv.core.cap
    omega
  · intro key ksize
    rw [hashmap_get_spec hrep2, hashmap_get_spec hrep]

/-- C13, probe termination: on the table `m` reached by any sequence of writer calls, for
every key and every hash value, the probe of `find_entry` returns after `n + 1` rounds
with `n < capacity`, at an empty slot or at a slot that matches in length, hash and
bytes; and `hashmap_resize`, on the table after one more writer call, returns, so that
`resize_entry` has found an empty slot of the new array for every entry it moved. -/
theorem probe_terminates (H : List Nat → Nat) (ops : List Op) (op : Op) (key : Key)
    (ksize hash : Nat) :
    ∃ m n j e m2 m3, run H ops hashmap_create = some m ∧ n < m.capacity ∧
      j = (hash % m.capacity + n) % m.capacity ∧
      find_entry m key ksize hash = some j ∧
      (∀ fuel, n < fuel →
        find_entry_loop m key ksize hash fuel (hash % m.capacity) = some j) ∧
      m.buckets[j]? = some e ∧
      (e.key = none ∨ ∃ ek, e.key = some ek ∧ e.ksize = ksize ∧ e.hash = hash ∧
        key_bytes ek ksize = key_bytes key ksize) ∧
      apply_op H m op = some m2 ∧ hashmap_resize m2 = some m3 := by
  obtain ⟨m, hrun, hrep⟩ := run_create_spec H ops
  obtain ⟨n, j, e, hn, hj, hfind, hloop, he, hcase⟩ := find_entry_stops hrep key ksize hash
  obtain ⟨m2, happ, hrep2, _⟩ := apply_op_spec hrep op
  obtain ⟨m3, hres, _⟩ := rep_resize hrep2 (a_apply_ne_nil _ _)
  exact ⟨m, n, j, e, m2, m3, hrun, hn, hj, hfind, hloop, he, hcase, happ, hres⟩

/-- C14, insertion-order list: on the table reached by any sequence of writer calls,
following `next` from `first` reaches `NULL` after exactly `count` slots; the slots met
are pairwise distinct and are exactly the slots with a non-null key; their keys are the
keys of the calls in the order of their first occurrence; and `last` is the last of them,
or the head sentinel when there is none. -/
theorem insertion_order_list (H : List Nat → Nat) (ops : List Op) :
    ∃ m l es, run H ops hashmap_create = some m ∧ slots_in_order m = some l ∧
      l.length = m.count ∧ l.Nodup ∧
      (∀ i e, m.buckets[i]? = some e → (i ∈ l ↔ e.key ≠ none)) ∧
      entries_in_order m = some es ∧
      es.map Content.key_id
        = first_inserted (ops.map (fun o => key_id o.key_of.1 o.key_of.2)) ∧
      m.last = last_of l := by
  obtain ⟨m, hrun, l, hinv, hent⟩ := run_create_spec H ops
  refine ⟨m, l, _, hrun, inv_slots_in_order hinv, hinv.count, hinv.core.nodup,
    fun i e he => core_mem_iff hinv.core i e he, inv_entries_in_order hinv, ?_,
    hinv.core.last⟩
  rw [hent, List.map_map, ← model_first_inserted]
  rfl

/-- C15, key replacement by `hashmap_set_free`: on the table reached by a sequence of
writer calls one of which has inserted a key byte-equal to `key[0..ksize)`,
`hashmap_set_free` returns and gives the entry `d` of that key the new key reference and
the new value; the key length and the cached hash of `d`, its position in the list, the
entries before and after it, and the count are unchanged. -/
theorem set_free_replaces_key (H : List Nat → Nat) (ops : List Op) (key : Key)
    (ksize val usr : Nat)
    (hpresent : key_id key ksize ∈ ops.map (fun o => key_id o.key_of.1 o.key_of.2)) :
    ∃ m m2 calls pre d post, run H ops hashmap_create = some m ∧
      hashmap_set_free H m key ksize val usr = some (m2, calls) ∧
      entries_in_order m = some (pre ++ d :: post) ∧
      (∃ k0, d.key = some k0 ∧ key_id k0 d.ksize = key_id key ksize) ∧
      entries_in_order m2 = some (pre ++ { d with key := some key, value := val } :: post) ∧
      hashmap_size m2 = hashmap_size m := by
  obtain ⟨m, m2, pre, a, post, hrun, happ, hid, he, he2, hcount⟩ :=
    overwrite_split ops (Op.set_free key ksize val usr) hpresent
  obtain ⟨calls, hsf⟩ := set_free_of_apply H m m2 key ksize val usr happ
  rw [content_overwrite H _ a hid] at he2
  exact ⟨m, m2, calls, pre, content_of H a, post, hrun, hsf, he, ⟨a.key, rfl, hid⟩, he2,
    hcount⟩

/-- The key replacement on three two-byte keys, with the 16-bit hash of the source. -/
theorem set_free_replaces_key_witness :
    key_id ⟨77, [1, 0]⟩ 2
        ∈ (set_ops (many_sets 3)).map (fun o => key_id o.key_of.1 o.key_of.2) ∧
      ∃ m m2 calls pre d post,
        run hash_data16 (set_ops (many_sets 3)) hashmap_create = some m ∧
        hashmap_set_free hash_data16 m ⟨77, [1, 0]⟩ 2 9 0 = some (m2, calls) ∧
        entries_in_order m = some (pre ++ d :: post) ∧
        (∃ k0, d.key = some k0 ∧ key_id k0 d.ksize = key_id ⟨77, [1, 0]⟩ 2) ∧
        entries_in_order m2
          = some (pre ++ { d with key := some ⟨77, [1, 0]⟩, value := 9 } :: post) ∧
        hashmap_size m2 = hashmap_size m :=
  ⟨by decide, set_free_replaces_key hash_data16 (set_ops (many_sets 3)) ⟨77, [1, 0]⟩ 2 9 0
    (by decide)⟩

/-- C16 as stated fails: on the table that holds 1001 entries the callback is called 1001
times, not 1000 times. -/
theorem iterate_cap_not_1000 :
    ¬ (∀ n, 1000 < n → ∃ m,
        run hash_data16 (set_ops (many_sets n)) hashmap_create = some m ∧
          (hashmap_iterate m 0).map List.length = some 1000) := by
  intro h
  obtain ⟨m, hrun, hlen⟩ := h 1001 (by decide)
  obtain ⟨m2, hrun2, hrep, _⟩ := run_distinct hash_data16 _ (many_sets_nodup 1001)
  rw [hrun] at hrun2
  cases hrun2
  rw [hashmap_iterate_spec hrep] at hlen
  simp only [Option.map_some', List.length_map, List.length_take, many_sets_length,
    Option.some.injEq] at hlen
  revert hlen
  decide

/-- C16 amended: on a table that holds more than 1002 entries `hashmap_iterate` calls the
callback on exactly the first 1002 entries of the list, in list order, and on no other. -/
theorem iterate_cap_1002 (H : List Nat → Nat) (ops : List Op) (usr : Nat)
    (hbig : 1002 < distinct_keys ops) :
    ∃ m es, run H ops hashmap_create = some m ∧ entries_in_order m = some es ∧
      1002 < es.length ∧ es.length = hashmap_size m ∧
      hashmap_iterate m usr = some ((es.take 1002).map (Content.call usr)) ∧
      ((es.take 1002).map (Content.call usr)).length = 1002 := by
  obtain ⟨m, hrun, hrep⟩ := run_create_spec H ops
  obtain ⟨es, hes, hlen, hit⟩ := rep_iterate hrep usr
  have hcount : m.count = distinct_keys ops := by rw [rep_count hrep, model_length]
  refine ⟨m, es, hrun, hes, by omega, hlen, hit, ?_⟩
  rw [List.length_map, List.length_take]
  omega

/-- The iteration cap on 2000 two-byte keys, with the 16-bit hash of the source. -/
theorem iterate_cap_1002_witness :
    1002 < distinct_keys (set_ops (many_sets 2000)) ∧
      ∃ m es, run hash_data16 (set_ops (many_sets 2000)) hashmap_create = some m ∧
        entries_in_order m = some es ∧ 1002 < es.length ∧ es.length = hashmap_size m ∧
        hashmap_iterate m 7 = some ((es.take 1002).map (Content.call 7)) ∧
        ((es.take 1002).map (Content.call 7)).length = 1002 :=
  have hbig : 1002 < distinct_keys (set_ops (many_sets 2000)) := by
    rw [distinct_keys_nodup _ (many_sets_nodup 2000), many_sets_length]
    decide
  ⟨hbig, iterate_cap_1002 hash_data16 (set_ops (many_sets 2000)) 7 hbig⟩

/-- C17, exact iteration bound: on the table reached by any sequence of writer calls, with
`N` entries, `hashmap_iterate` returns after calling the callback on the first
`min N 1002` entries of the list, once each and in list order; the iteration is complete
exactly when `N ≤ 1002`. -/
theorem iterate_exact_bound (H : List Nat → Nat) (ops : List Op) (usr : Nat) :
    ∃ m es calls, run H ops hashmap_create = some m ∧ entries_in_order m = some es ∧
      es.length = hashmap_size m ∧ hashmap_iterate m usr = some calls ∧
      calls = (es.take (min (hashmap_size m) 1002)).map (Content.call usr) ∧
      calls.length = min (hashmap_size m) 1002 ∧
      (calls = es.map (Content.call usr) ↔ hashmap_size m ≤ 1002) := by
  obtain ⟨m, hrun, hrep⟩ := run_create_spec H ops
  obtain ⟨es, hes, hlen, hit⟩ := rep_iterate hrep usr
  have htake : es.take (min (hashmap_size m) 1002) = es.take 1002 := by
    rw [hashmap_size, ← hlen]
    by_cases hle : es.length ≤ 1002
    · rw [Nat.min_eq_left hle, List.take_of_length_le hle, List.take_of_length_le (le_refl _)]
    · rw [Nat.min_eq_right (by omega)]
  refine ⟨m, es, _, hrun, hes, hlen, hit, by rw [htake], ?_, ?_⟩
  · rw [List.length_map, List.length_take, hashmap_size, hlen, Nat.min_comm]
  · rw [hashmap_size, ← hlen]
    constructor
    · intro heq
      have := congrArg List.length heq
      rw [List.length_map, List.length_map, List.length_take] at this
      omega
    · intro hle
      rw [List.take_of_length_le hle]

/-- C18, no resize of an empty table: `hashmap_resize` does not return on a table whose
list is empty; on the table reached by any sequence of writer calls the load test holds
only when `count ≥ 3`, where the list is not empty, and the prologue of the writers, which
is the only caller of `hashmap_resize`, returns. -/
theorem resize_not_on_empty (H : List Nat → Nat) (ops : List Op) :
    (∀ m0 : hashmap, m0.first = none → hashmap_resize m0 = none) ∧
      ∃ m m1, run H ops hashmap_create = some m ∧ grow_if_needed m = some m1 ∧
        (over_load m.count m.capacity = true →
          3 ≤ m.count ∧ m.first ≠ none ∧ hashmap_resize m = some m1) := by
  refine ⟨resize_empty, ?_⟩
  obtain ⟨m, hrun, l, hinv, _⟩ := run_create_spec H ops
  obtain ⟨m1, l1, hg, _⟩ := grow_core hinv
  refine ⟨m, m1, hrun, hg, ?_⟩
  intro hover
  have h3 : 3 ≤ m.count := by
    have h1 := (over_load_iff _ _).1 hover
    have h2 := hinv.core.cap
    omega
  refine ⟨h3, inv_first hinv (by omega), ?_⟩
  rw [grow_if_needed, if_pos hover] at hg
  exact hg

/-- C19, growth without insertion: on a table from `hashmap_create` after three
`hashmap_set` calls with pairwise distinct keys the count is 3 and the capacity 5, and a
call of `hashmap_set`, `hashmap_get_set` or `hashmap_set_free` with one of the three keys
doubles the capacity to 10 while the size stays 3. -/
theorem growth_without_insertion (H : List Nat → Nat) (sets : List (Key × Nat × Nat))
    (key : Key) (ksize v usr : Nat) (hlen : sets.length = 3)
    (hnd : (sets.map (fun o => key_id o.1 o.2.1)).Nodup)
    (hkey : key_id key ksize ∈ sets.map (fun o => key_id o.1 o.2.1)) :
    ∃ m, run H (set_ops sets) hashmap_create = some m ∧ m.count = 3 ∧ m.capacity = 5 ∧
      (∃ m2, hashmap_set H m key ksize v = some m2 ∧ m2.capacity = 10 ∧
        hashmap_size m2 = 3) ∧
      (∃ m2 r out, hashmap_get_set H m key ksize v = some (m2, r, out) ∧
        m2.capacity = 10 ∧ hashmap_size m2 = 3) ∧
      (∃ m2 calls, hashmap_set_free H m key ksize v usr = some (m2, calls) ∧
        m2.capacity = 10 ∧ hashmap_size m2 = 3) := by
  obtain ⟨m, m2, hrun, hcount, hcap, happ, hcap2, hsize⟩ :=
    grow_present H sets (Op.set key ksize v) hlen hnd hkey
  obtain ⟨m', m3, hrun3, _, _, happ3, hcap3, hsize3⟩ :=
    grow_present H sets (Op.get_set key ksize v) hlen hnd hkey
  obtain ⟨m'', m4, hrun4, _, _, happ4, hcap4, hsize4⟩ :=
    grow_present H sets (Op.set_free key ksize v usr) hlen hnd hkey
  rw [hrun] at hrun3 hrun4
  cases hrun3
  cases hrun4
  obtain ⟨r, out, hgs⟩ := get_set_of_apply H m m3 key ksize v happ3
  obtain ⟨calls, hsf⟩ := set_free_of_apply H m m4 key ksize v usr happ4
  exact ⟨m, hrun, hcount, hcap, ⟨m2, happ, hcap2, hsize⟩, ⟨m3, r, out, hgs, hcap3, hsize3⟩,
    ⟨m4, calls, hsf, hcap4, hsize4⟩⟩

/-- The growth without insertion on three two-byte keys, with the 16-bit hash of the
source. -/
theorem growth_without_insertion_witness :
    (many_sets 3).length = 3 ∧
      ∃ m, run hash_data16 (set_ops (many_sets 3)) hashmap_create = some m ∧
        m.count = 3 ∧ m.capacity = 5 ∧
        (∃ m2, hashmap_set hash_data16 m ⟨77, [1, 0]⟩ 2 9 = some m2 ∧ m2.capacity = 10 ∧
          hashmap_size m2 = 3) ∧
        (∃ m2 r out, hashmap_get_set hash_data16 m ⟨77, [1, 0]⟩ 2 9 = some (m2, r, out) ∧
          m2.capacity = 10 ∧ hashmap_size m2 = 3) ∧
        (∃ m2 calls, hashmap_set_free hash_data16 m ⟨77, [1, 0]⟩ 2 9 0 = some (m2, calls) ∧
          m2.capacity = 10 ∧ hashmap_size m2 = 3) :=
  ⟨by decide, growth_without_insertion hash_data16 (many_sets 3) ⟨77, [1, 0]⟩ 2 9 0
    (by decide) (by decide) (by decide)⟩

/-- C20, open-addressing invariant: on the table `m` reached by any sequence of writer
calls, the cached hash of every occupied slot is the hash of its key, every slot of the
probe path from `hash % capacity` up to it is occupied, and no two occupied slots hold
byte-equal keys; and after one more writer call `hashmap_resize` returns a table of twice
the capacity on which the same holds. -/
theorem open_addressing_invariant (H : List Nat → Nat) (ops : List Op) (op : Op) :
    ∃ m m2 m3, run H ops hashmap_create = some m ∧ OpenAddressing H m ∧
      apply_op H m op = some m2 ∧ OpenAddressing H m2 ∧ hashmap_resize m2 = some m3 ∧
      m3.capacity = m2.capacity * 2 ∧ OpenAddressing H m3 := by
  obtain ⟨m, hrun, hrep⟩ := run_create_spec H ops
  obtain ⟨m2, happ, hrep2, _⟩ := apply_op_spec hrep op
  obtain ⟨m3, hres, hrep3, hcap, _⟩ := rep_resize hrep2 (a_apply_ne_nil _ _)
  exact ⟨m, m2, m3, hrun, rep_open_addressing hrep, happ, rep_open_addressing hrep2, hres,
    hcap, rep_open_addressing hrep3⟩

end Dirac
